import Mathlib

/-!
Verification of the DAG trace-engine core (`dagUtils`): data model, graph
representation builders, cycle detector, topological / DFS / BFS trace
generators and the random DAG generator, embedded shallowly from the
TypeScript source.  JavaScript `Map`s are embedded as association lists
(`set` replaces the first matching key or appends, `get` returns the first
match), which reproduces the source's `Map.get`/`Map.set` semantics
including the distinction between a missing key (JS `undefined`, here
`none`) and a key mapped to `0`.  The node `position` and edge styling
fields (`type`, `animated`, `markerEnd`) are rendering-only and carry no
algorithmic content, so they are not part of the embedding.  Recursive
loops are embedded with an explicit fuel argument that is provably
sufficient (each definition is instantiated with enough fuel that the
fuel-exhaustion branch is never taken on its actual recursion tree), so
the functions compute by structural recursion.
-/

/-- A node of the graph: unique string id plus a display label
(`GraphNode` in the source; `position` is rendering-only). -/
structure GraphNode where
  id : String
  label : String
deriving DecidableEq

/-- A directed edge (`GraphEdge` in the source): an id and the
source/target node ids.  Styling fields are rendering-only. -/
structure GraphEdge where
  id : String
  source : String
  target : String
deriving DecidableEq

/-- JS `Map.set` on an association list: replace the first binding of the
key, or append a fresh binding at the end (JS insertion order). -/
def setA (m : List (String × Nat)) (k : String) (v : Nat) : List (String × Nat) :=
  match m with
  | [] => [(k, v)]
  | (k1, v1) :: rest => if k1 = k then (k, v) :: rest else (k1, v1) :: setA rest k v

/-- JS `Map.get` on an association list: first binding wins, `none` when
the key is absent (JS `undefined`). -/
def getA (m : List (String × Nat)) (k : String) : Option Nat :=
  match m with
  | [] => none
  | (k1, v1) :: rest => if k1 = k then some v1 else getA rest k

/-- `buildAdjacencyList` viewed through `Map.get(u) || []`: the targets of
the edges whose source is `u`, in edge insertion order (the source groups
edges by `source`, preserving per-source order). -/
def buildAdjacencyList (edges : List GraphEdge) : String → List String :=
  fun u => (edges.filter (fun e => e.source = u)).map (fun e => e.target)

/-- `buildReverseAdjacencyList` viewed through `Map.get(t) || []`: the
sources of the edges whose target is `t`, in edge insertion order. -/
def buildReverseAdjacencyList (edges : List GraphEdge) : String → List String :=
  fun t => (edges.filter (fun e => e.target = t)).map (fun e => e.source)

/-- `calculateInDegrees` viewed through `Map.get(id) || 0`: the number of
edges whose target is `id` (node ids initialised to 0, then one increment
per incoming edge; absent keys read as 0 through `|| 0`). -/
def calculateInDegrees (nodes : List GraphNode) (edges : List GraphEdge) : String → Nat :=
  fun id => (edges.filter (fun e => e.target = id)).length

/-- `nodes.forEach(node => visited.set(node.id, 0))`: the initial visited
map of the trace generators. -/
def initVisited (nodes : List GraphNode) : List (String × Nat) :=
  nodes.foldl (fun m n => setA m n.id 0) []

/-- `startNodeId || nodes[0]?.id` followed by the truthiness test on the
result (`if (startNode)` / `if (!startNode)`): an explicitly supplied
non-empty id wins, otherwise the first node's id; an empty string is falsy
in JS, so it is treated as absent in both places. -/
def resolveStart (nodes : List GraphNode) (startNodeId : Option String) : Option String :=
  let cand : Option String :=
    match startNodeId with
    | some s => if s = "" then (nodes.head?).map (fun n => n.id) else some s
    | none => (nodes.head?).map (fun n => n.id)
  match cand with
  | some s => if s = "" then none else some s
  | none => none

/-- One record of the topological trace
(`{ removedNode, queue, visited }`). -/
structure TopoStep where
  removedNode : String
  queue : List String
  visited : List (String × Nat)
deriving DecidableEq

/-- Sequential decrement of the live in-degree map over a neighbour list,
as in the source's update loop (`inDegrees.set(n, (get(n)||0) - 1)`); the
values live in `Int` because JS subtraction can go below zero. -/
def decAll (f : String → Int) : List String → (String → Int)
  | [] => f
  | n :: rest => decAll (fun id => if id = n then f id - 1 else f id) rest

/-- The `while (remaining.size > 0)` loop of `topologicalSortStepsDetailed`:
scan the remaining ids for live in-degree 0, stop if none, otherwise remove
the first one, mark it visited, decrement the in-degrees of the removed
node's reverse-adjacency entries, and record the ready set recomputed from
the updated state.  The loop removes one id per iteration, so fuel equal to
the initial number of ids makes the fuel bound unreachable. -/
def topoLoop (radj : String → List String) :
    Nat → List String → (String → Int) → List (String × Nat) → List TopoStep
  | 0, _, _, _ => []
  | fuel + 1, remaining, inDeg, vis =>
    match remaining with
    | [] => []
    | _ :: _ =>
      match remaining.filter (fun id => inDeg id = 0) with
      | [] => []
      | removed :: _ =>
        let remaining2 := remaining.erase removed
        let vis2 := setA vis removed 1
        let inDeg2 := decAll inDeg (radj removed)
        let nextQueue := remaining2.filter (fun id => inDeg2 id = 0)
        ⟨removed, nextQueue, vis2⟩ :: topoLoop radj fuel remaining2 inDeg2 vis2

/-- `topologicalSortStepsDetailed(nodes, edges)`. -/
def topologicalSortStepsDetailed (nodes : List GraphNode) (edges : List GraphEdge) :
    List TopoStep :=
  topoLoop (buildReverseAdjacencyList edges) nodes.length (nodes.map (fun n => n.id))
    (fun id => (calculateInDegrees nodes edges id : Int)) (initVisited nodes)

/-- `createSampleDAG` (ids and labels; positions are rendering-only). -/
def createSampleDAG : List GraphNode × List GraphEdge :=
  ([⟨"A", "A"⟩, ⟨"B", "B"⟩, ⟨"C", "C"⟩, ⟨"D", "D"⟩, ⟨"E", "E"⟩],
   [⟨"e1", "A", "B"⟩, ⟨"e2", "A", "C"⟩, ⟨"e3", "B", "D"⟩,
    ⟨"e4", "C", "D"⟩, ⟨"e5", "D", "E"⟩])

example : topologicalSortStepsDetailed createSampleDAG.1 createSampleDAG.2 =
    [⟨"A", [], [("A", 1), ("B", 0), ("C", 0), ("D", 0), ("E", 0)]⟩] := by decide

/-- The neighbour loop of `hasCycle`'s recursive `dfs`, with the recursive
call inlined: `visited` and the recursion stack are string lists (the JS
sets are only queried for membership; along one call chain the recursion
stack holds exactly the current path, since `dfs` is only entered on
unvisited nodes).  Entering a neighbour costs one unit of fuel, which
bounds the total number of calls. -/
def dfsCycGo (adj : String → List String) :
    Nat → List String → List String → List String → Bool × List String
  | 0, _, vis, _ => (false, vis)
  | fuel + 1, pending, vis, stack =>
    match pending with
    | [] => (false, vis)
    | nb :: rest =>
      if nb ∈ vis then
        if nb ∈ stack then (true, vis) else dfsCycGo adj fuel rest vis stack
      else
        match dfsCycGo adj fuel (adj nb) (nb :: vis) (nb :: stack) with
        | (true, vis2) => (true, vis2)
        | (false, vis2) => dfsCycGo adj fuel rest vis2 stack

/-- The outer loop of `hasCycle`: start a DFS from every not-yet-visited
node, threading the visited set. -/
def hasCycleLoop (adj : String → List String) (fuel : Nat) :
    List String → List String → Bool
  | [], _ => false
  | n :: rest, vis =>
    if n ∈ vis then hasCycleLoop adj fuel rest vis
    else
      match dfsCycGo adj fuel (adj n) (n :: vis) [n] with
      | (true, _) => true
      | (false, vis2) => hasCycleLoop adj fuel rest vis2

/-- `hasCycle(nodes, edges)`: three-colour DFS cycle detection.  The fuel
`|nodes| + 3|edges| + 1` strictly exceeds the potential of any reachable
state (proved below), so the fuel bound is never hit. -/
def hasCycle (nodes : List GraphNode) (edges : List GraphEdge) : Bool :=
  hasCycleLoop (buildAdjacencyList edges) (nodes.length + 3 * edges.length + 1)
    (nodes.map (fun n => n.id)) []

/-- One record of the DFS trace (`{ currentNode, stack, visited }`). -/
structure DFSStep where
  currentNode : String
  stack : List String
  visited : List (String × Nat)
deriving DecidableEq

/-- The neighbour loop of `dfsStepsDetailed`'s recursive `dfs`, with the
recursive call inlined.  Entering an unvisited neighbour `nb` emits the
push record (stack with `nb`, `nb` still unvisited), the visit record
(same stack, `nb` marked), the recursively produced records, and the pop
record (stack without `nb`); the pop record is always emitted because the
pushed stack is never empty. -/
def dfsDetGo (adj : String → List String) :
    Nat → List String → List (String × Nat) → List String →
    List DFSStep × List (String × Nat)
  | 0, _, vis, _ => ([], vis)
  | fuel + 1, pending, vis, stack =>
    match pending with
    | [] => ([], vis)
    | nb :: rest =>
      if getA vis nb = some 0 then
        let stack2 := stack ++ [nb]
        let vis1 := setA vis nb 1
        let res1 := dfsDetGo adj fuel (adj nb) vis1 stack2
        let res2 := dfsDetGo adj fuel rest res1.2 stack
        (⟨nb, stack2, vis⟩ :: ⟨nb, stack2, vis1⟩ ::
          (res1.1 ++ ⟨nb, stack, res1.2⟩ :: res2.1), res2.2)
      else dfsDetGo adj fuel rest vis stack

/-- `dfsStepsDetailed(nodes, edges, startNodeId?)`: the unconditional root
call `dfs(startNode, [])` is inlined (push record, visit record, recursion
over the root's adjacency, pop record with the empty stack). -/
def dfsStepsDetailed (nodes : List GraphNode) (edges : List GraphEdge)
    (startNodeId : Option String) : List DFSStep :=
  match resolveStart nodes startNodeId with
  | none => []
  | some start =>
    let adj := buildAdjacencyList edges
    let vis0 := initVisited nodes
    let vis1 := setA vis0 start 1
    let res := dfsDetGo adj (nodes.length + 2 * edges.length + 1) (adj start) vis1 [start]
    ⟨start, [start], vis0⟩ :: ⟨start, [start], vis1⟩ :: (res.1 ++ [⟨start, [], res.2⟩])

/-- One record of the BFS trace (`{ currentNode, queue, visited }`). -/
structure BFSStep where
  currentNode : String
  queue : List String
  visited : List (String × Nat)
deriving DecidableEq

/-- The neighbour loop of one BFS iteration: every unvisited forward
neighbour is marked, enqueued at the back, and a record is emitted with the
queue including the new arrival. -/
def bfsNbrs (current : String) :
    List String → List String → List (String × Nat) →
    List BFSStep × List String × List (String × Nat)
  | [], queue, vis => ([], queue, vis)
  | nb :: rest, queue, vis =>
    if getA vis nb = some 0 then
      let vis2 := setA vis nb 1
      let queue2 := queue ++ [nb]
      let res := bfsNbrs current rest queue2 vis2
      (⟨current, queue2, vis2⟩ :: res.1, res.2)
    else bfsNbrs current rest queue vis

/-- The `while (queue.length > 0)` loop of `bfsStepsDetailed`: dequeue the
front node, emit the dequeue record, then process its neighbours.  Each
iteration consumes one unit of fuel; the supplied fuel strictly exceeds
the measure `|queue| + 2·(number of unvisited entries)`, which shrinks
every iteration, so the bound is never hit. -/
def bfsLoop (adj : String → List String) :
    Nat → List String → List (String × Nat) → List BFSStep
  | 0, _, _ => []
  | fuel + 1, queue, vis =>
    match queue with
    | [] => []
    | current :: rest =>
      let res := bfsNbrs current (adj current) rest vis
      ⟨current, rest, vis⟩ :: (res.1 ++ bfsLoop adj fuel res.2.1 res.2.2)

/-- `bfsStepsDetailed(nodes, edges, startNodeId?)`: the start node is
marked and enqueued, the initial record is emitted, then the queue loop
runs. -/
def bfsStepsDetailed (nodes : List GraphNode) (edges : List GraphEdge)
    (startNodeId : Option String) : List BFSStep :=
  match resolveStart nodes startNodeId with
  | none => []
  | some start =>
    let adj := buildAdjacencyList edges
    let vis1 := setA (initVisited nodes) start 1
    ⟨start, [start], vis1⟩ :: bfsLoop adj (2 * nodes.length + 2) [start] vis1

/-- The id `node-i` given to the i-th generated node. -/
def nodeIdOf (i : Nat) : String :=
  "node-" ++ toString i

/-- The rejection-sampling loop of `generateRandomDAG` over the attempt
budget: draw two indices from the random oracle, accept the pair only if
the source index is strictly below the target index, the (source,target)
pair is not already present, and `hasCycle` stays false on the extended
edge list.  `rnd` models the ambient `Math.random()` pair drawn at each
attempt; `Math.floor(Math.random()*numNodes)` always lies in
`[0, numNodes)`, rendered here by reducing the oracle value modulo
`numNodes`. -/
def genEdgesLoop (nodes : List GraphNode) (numNodes numEdges : Nat)
    (rnd : Nat → Nat × Nat) :
    Nat → Nat → List GraphEdge → Nat → List GraphEdge
  | 0, _, edges, _ => edges
  | remaining + 1, attempt, edges, edgeCount =>
    if edgeCount < numEdges then
      let sourceIndex := (rnd attempt).1 % numNodes
      let targetIndex := (rnd attempt).2 % numNodes
      if sourceIndex < targetIndex then
        let sourceId := nodeIdOf sourceIndex
        let targetId := nodeIdOf targetIndex
        if edges.any (fun e => e.source = sourceId && e.target = targetId) then
          genEdgesLoop nodes numNodes numEdges rnd remaining (attempt + 1) edges edgeCount
        else
          if hasCycle nodes
              (edges ++ [⟨"e-" ++ toString edgeCount, sourceId, targetId⟩]) then
            genEdgesLoop nodes numNodes numEdges rnd remaining (attempt + 1) edges edgeCount
          else
            genEdgesLoop nodes numNodes numEdges rnd remaining (attempt + 1)
              (edges ++ [⟨"edge-" ++ toString edgeCount, sourceId, targetId⟩])
              (edgeCount + 1)
      else genEdgesLoop nodes numNodes numEdges rnd remaining (attempt + 1) edges edgeCount
    else edges

/-- `generateRandomDAG(numNodes, numEdges)`: `numNodes` nodes labelled with
consecutive letters, then up to `10 * numEdges` sampling attempts
(positions are rendering-only and drawn from the ambient random source). -/
def generateRandomDAG (numNodes numEdges : Nat) (rnd : Nat → Nat × Nat) :
    List GraphNode × List GraphEdge :=
  let nodes := (List.range numNodes).map
    (fun i => GraphNode.mk (nodeIdOf i) (Char.ofNat (65 + i)).toString)
  (nodes, genEdgesLoop nodes numNodes numEdges rnd (numEdges * 10) 0 [] 0)

example : hasCycle createSampleDAG.1 createSampleDAG.2 = false := by decide

example : hasCycle [⟨"A", "A"⟩, ⟨"B", "B"⟩, ⟨"C", "C"⟩]
    [⟨"e1", "A", "B"⟩, ⟨"e2", "B", "C"⟩, ⟨"e3", "C", "A"⟩] = true := by decide

example : hasCycle [⟨"A", "A"⟩] [⟨"e1", "A", "A"⟩] = true := by decide

example :
    (dfsStepsDetailed createSampleDAG.1 createSampleDAG.2 none).map
      (fun s => s.currentNode) =
    ["A", "A", "B", "B", "D", "D", "E", "E", "E", "D", "B", "C", "C", "C", "A"] := by
  decide

example :
    (bfsStepsDetailed createSampleDAG.1 createSampleDAG.2 none).map
      (fun s => (s.currentNode, s.queue)) =
    [("A", ["A"]), ("A", []), ("A", ["B"]), ("A", ["B", "C"]),
     ("B", ["C"]), ("B", ["C", "D"]), ("C", ["D"]), ("D", []),
     ("D", ["E"]), ("E", [])] := by decide

/-- The edge relation of a graph: `a` steps to `b` when some edge has
source `a` and target `b`. -/
def EdgeStep (edges : List GraphEdge) (a b : String) : Prop :=
  ∃ e ∈ edges, e.source = a ∧ e.target = b

/-- Reachability along directed edges (reflexive-transitive closure). -/
def Reaches (edges : List GraphEdge) : String → String → Prop :=
  Relation.ReflTransGen (EdgeStep edges)

/-- The graph has a directed cycle: some node reaches itself in at least
one step. -/
def HasDirCycle (edges : List GraphEdge) : Prop :=
  ∃ v, Relation.TransGen (EdgeStep edges) v v

/-- `a` reaches `b` in exactly `n` edge steps. -/
def ReachesIn (edges : List GraphEdge) : Nat → String → String → Prop
  | 0, a, b => a = b
  | n + 1, a, b => ∃ c, EdgeStep edges a c ∧ ReachesIn edges n c b

/-- `d` is the shortest-path distance from `s` to `v`: some path of
length `d` exists and no shorter one does. -/
def IsDist (edges : List GraphEdge) (s v : String) (d : Nat) : Prop :=
  ReachesIn edges d s v ∧ ∀ m, ReachesIn edges m s v → d ≤ m

/-- Two-node chain used as the minimal counterexample to the claimed
topological trace length law. -/
def chainNodes : List GraphNode := [⟨"A", "A"⟩, ⟨"B", "B"⟩]

/-- The single edge A→B of the two-node chain. -/
def chainEdges : List GraphEdge := [⟨"e1", "A", "B"⟩]

/-- The ready set described by the spec for the record of step `i`: the
still-remaining nodes whose residual in-degree — in-degree in the input
graph minus the incoming edges contributed by the already-removed nodes —
is zero, listed in the scan order of the remaining ids.  This follows the
spec's words and is compared against the queue the code records. -/
def claimReadyQueue (nodes : List GraphNode) (edges : List GraphEdge)
    (removed : List String) : List String :=
  ((nodes.map (fun n => n.id)).filter (fun v => !(removed.contains v))).filter
    (fun v => (edges.filter (fun e => e.target == v)).length =
      (edges.filter (fun e => e.target == v && removed.contains e.source)).length)

theorem dfsCycGo_nil_pending (adj : String → List String) (fuel : Nat)
    (vis stack : List String) : dfsCycGo adj fuel [] vis stack = (false, vis) := by
  cases fuel <;> simp [dfsCycGo]

theorem hasCycleLoop_no_edges (fuel : Nat) (ids vis : List String) :
    hasCycleLoop (buildAdjacencyList []) fuel ids vis = false := by
  induction ids generalizing vis with
  | nil => simp [hasCycleLoop]
  | cons n rest ih =>
    simp only [hasCycleLoop]
    split
    · exact ih vis
    · rw [show buildAdjacencyList [] n = [] from rfl, dfsCycGo_nil_pending]
      exact ih _

/-- A graph with no edges is never flagged cyclic. -/
theorem hasCycle_no_edges (nodes : List GraphNode) : hasCycle nodes [] = false := by
  simp [hasCycle, hasCycleLoop_no_edges]

theorem buildAdjacencyList_eq_pairs (edges : List GraphEdge) (u : String) :
    buildAdjacencyList edges u =
      ((edges.map (fun e => (e.source, e.target))).filter
        (fun p => p.1 = u)).map (fun p => p.2) := by
  induction edges with
  | nil => rfl
  | cons e rest ih =>
    by_cases h : e.source = u <;>
      simp [buildAdjacencyList, List.filter_cons, h] <;>
      simpa [buildAdjacencyList] using ih

/-- `hasCycle` only looks at edge sources and targets (never ids or
styling), so two edge lists with the same (source,target) sequences give
the same answer. -/
theorem hasCycle_srcTgt_congr (nodes : List GraphNode) (edges1 edges2 : List GraphEdge)
    (h : edges1.map (fun e => (e.source, e.target)) =
      edges2.map (fun e => (e.source, e.target))) :
    hasCycle nodes edges1 = hasCycle nodes edges2 := by
  have hadj : buildAdjacencyList edges1 = buildAdjacencyList edges2 := by
    funext u
    rw [buildAdjacencyList_eq_pairs, buildAdjacencyList_eq_pairs, h]
  have hlen : edges1.length = edges2.length := by
    have := congrArg List.length h
    simpa using this
  simp [hasCycle, hadj, hlen]

/-- A transitive chain decomposes into a first step followed by a
reflexive-transitive tail. -/
theorem transGen_head_decomp {α : Type} {r : α → α → Prop} {a b : α}
    (h : Relation.TransGen r a b) :
    ∃ c, r a c ∧ Relation.ReflTransGen r c b := by
  induction h with
  | single h => exact ⟨_, h, Relation.ReflTransGen.refl⟩
  | tail _ h2 ih =>
    rcases ih with ⟨c, hc, hcb⟩
    exact ⟨c, hc, hcb.tail h2⟩

/-- C1: the claim "trace length = node count iff acyclic" fails on the
two-node chain A→B: the graph has no directed cycle (and `hasCycle` agrees),
yet the topological trace has length 1 while there are 2 nodes.  The cause:
the in-degree update walks `buildReverseAdjacencyList(edges).get(removed)`,
which lists the removed node's predecessors, not its successors, so B's
in-degree is never decremented and the loop stops early. -/
theorem c1_topo_trace_length_bug :
    (¬ HasDirCycle chainEdges) ∧
    hasCycle chainNodes chainEdges = false ∧
    (topologicalSortStepsDetailed chainNodes chainEdges).length = 1 ∧
    chainNodes.length = 2 := by
  refine ⟨?_, by decide, by decide, by decide⟩
  rintro ⟨v, hv⟩
  have hstep : ∀ a b, EdgeStep chainEdges a b → a = "A" ∧ b = "B" := by
    rintro a b ⟨e, he, hs, ht⟩
    have : e = ⟨"e1", "A", "B"⟩ := by simpa [chainEdges] using he
    subst this
    exact ⟨hs.symm, ht.symm⟩
  rcases transGen_head_decomp hv with ⟨c, hc, hcv⟩
  rcases hstep _ _ hc with ⟨h1, h2⟩
  subst h1 h2
  rcases hcv.cases_head with h | ⟨c2, hc2, _⟩
  · exact absurd h (by decide)
  · rcases hstep _ _ hc2 with ⟨hB, _⟩
    exact absurd hB (by decide)

/-- C2: on the sample DAG the code's whole topological trace is the single
record `{removedNode := A, queue := [], visited := {A ↦ 1, B..E ↦ 0}}`:
the first record does have `removedNode = A`, but its queue is `[]`
rather than the claimed `[B, C]`, and the trace never removes B, C, D, E,
so it is not a linearization of the five nodes. -/
theorem c2_sample_topo_trace_bug :
    topologicalSortStepsDetailed createSampleDAG.1 createSampleDAG.2 =
      [⟨"A", [], [("A", 1), ("B", 0), ("C", 0), ("D", 0), ("E", 0)]⟩] := by decide

/-- C7: the queue field does not contain the remaining nodes of residual
in-degree 0 as the claim defines them.  On the sample DAG, after step 0
removes A, the claim's residual ready set is [B, C], but the recorded
queue of step 0 (the only step) is []. -/
theorem c7_queue_preview_bug :
    (topologicalSortStepsDetailed createSampleDAG.1 createSampleDAG.2).map
      (fun s => s.queue) = [[]] ∧
    claimReadyQueue createSampleDAG.1 createSampleDAG.2 ["A"] = ["B", "C"] := by
  decide

theorem getA_setA (m : List (String × Nat)) (k k2 : String) (v : Nat) :
    getA (setA m k v) k2 = if k2 = k then some v else getA m k2 := by
  induction m with
  | nil =>
    by_cases h : k2 = k
    · subst h
      simp [setA, getA]
    · simp [setA, getA, h, Ne.symm h]
  | cons p rest ih =>
    obtain ⟨k1, v1⟩ := p
    by_cases h1 : k1 = k
    · subst h1
      by_cases h2 : k2 = k1
      · subst h2
        simp [setA, getA]
      · simp [setA, getA, h2, Ne.symm h2]
    · by_cases h2 : k1 = k2
      · subst h2
        simp [setA, getA, h1]
      · simp [setA, getA, h1, h2, ih]

theorem getA_foldl_init (nodes : List GraphNode) (m0 : List (String × Nat)) (k : String) :
    getA (nodes.foldl (fun m n => setA m n.id 0) m0) k =
      if k ∈ nodes.map (fun n => n.id) then some 0 else getA m0 k := by
  induction nodes generalizing m0 with
  | nil => simp
  | cons n rest ih =>
    rw [List.foldl_cons, ih]
    by_cases hmem : k ∈ rest.map (fun n => n.id)
    · simp [hmem]
    · rw [if_neg hmem, getA_setA]
      by_cases hk : k = n.id
      · simp [hk]
      · simp [List.map_cons, hk, hmem]

/-- The initial visited map binds exactly the node ids, all to 0. -/
theorem getA_initVisited (nodes : List GraphNode) (k : String) :
    getA (initVisited nodes) k =
      if k ∈ nodes.map (fun n => n.id) then some 0 else none := by
  simp [initVisited, getA_foldl_init, getA]

/-- The neighbour loop of BFS preserves "everything in the queue is marked
visited", marks monotonically, and every emitted record satisfies the
queue-visited invariant. -/
theorem bfsNbrs_queue_visited (current : String) :
    ∀ pending queue vis,
      (∀ z ∈ queue, getA vis z = some 1) →
      (∀ z ∈ (bfsNbrs current pending queue vis).2.1,
        getA (bfsNbrs current pending queue vis).2.2 z = some 1) ∧
      (∀ k, getA vis k = some 1 →
        getA (bfsNbrs current pending queue vis).2.2 k = some 1) ∧
      (∀ r ∈ (bfsNbrs current pending queue vis).1,
        ∀ q ∈ r.queue, getA r.visited q = some 1) := by
  intro pending
  induction pending with
  | nil =>
    intro queue vis hq
    exact ⟨hq, fun k hk => hk, by simp [bfsNbrs]⟩
  | cons nb rest ih =>
    intro queue vis hq
    simp only [bfsNbrs]
    split_ifs with h0
    · have hq2 : ∀ z ∈ queue ++ [nb], getA (setA vis nb 1) z = some 1 := by
        intro z hz
        rw [getA_setA]
        rcases List.mem_append.mp hz with hz | hz
        · split_ifs with he
          · rfl
          · exact hq z hz
        · simp only [List.mem_singleton] at hz
          simp [hz]
      obtain ⟨ih1, ih2, ih3⟩ := ih (queue ++ [nb]) (setA vis nb 1) hq2
      refine ⟨ih1, ?_, ?_⟩
      · intro k hk
        apply ih2
        rw [getA_setA]
        split_ifs with he
        · rfl
        · exact hk
      · intro r hr
        rcases List.mem_cons.mp hr with hr | hr
        · subst hr
          exact hq2
        · exact ih3 r hr
    · exact ih queue vis hq

/-- Every record of the BFS loop has its queue contained in the nodes its
own visited map marks 1. -/
theorem bfsLoop_queue_visited (adj : String → List String) :
    ∀ fuel queue vis,
      (∀ z ∈ queue, getA vis z = some 1) →
      ∀ r ∈ bfsLoop adj fuel queue vis, ∀ q ∈ r.queue, getA r.visited q = some 1 := by
  intro fuel
  induction fuel with
  | zero => simp [bfsLoop]
  | succ f ih =>
    intro queue vis hq
    match queue with
    | [] => simp [bfsLoop]
    | current :: rest =>
      simp only [bfsLoop]
      intro r hr
      rcases List.mem_cons.mp hr with hr | hr
      · subst hr
        intro q hqq
        exact hq q (List.mem_cons_of_mem _ hqq)
      · have hrest : ∀ z ∈ rest, getA vis z = some 1 :=
          fun z hz => hq z (List.mem_cons_of_mem _ hz)
        obtain ⟨n1, _, n3⟩ := bfsNbrs_queue_visited current (adj current) rest vis hrest
        rcases List.mem_append.mp hr with hr | hr
        · exact n3 r hr
        · exact ih _ _ n1 r hr

/-- C8: in every BFS record the queue only holds nodes whose visited entry
in that same record is 1, and when a start node resolves, the first record
is the initial state: currentNode = start, queue = [start], visited = the
initial map with the start marked. -/
theorem c8_bfs_queue_all_visited (nodes : List GraphNode) (edges : List GraphEdge)
    (startNodeId : Option String) :
    (∀ r ∈ bfsStepsDetailed nodes edges startNodeId,
      ∀ q ∈ r.queue, getA r.visited q = some 1) ∧
    (∀ s, resolveStart nodes startNodeId = some s →
      (bfsStepsDetailed nodes edges startNodeId).head? =
        some ⟨s, [s], setA (initVisited nodes) s 1⟩) := by
  constructor
  · intro r hr
    unfold bfsStepsDetailed at hr
    match hres : resolveStart nodes startNodeId with
    | none => rw [hres] at hr; simp at hr
    | some start =>
      rw [hres] at hr
      simp only [List.mem_cons] at hr
      rcases hr with hr | hr
      · subst hr
        intro q hq
        simp only [List.mem_singleton] at hq
        subst hq
        simp [getA_setA]
      · refine bfsLoop_queue_visited _ _ _ _ ?_ r hr
        intro z hz
        simp only [List.mem_singleton] at hz
        subst hz
        simp [getA_setA]
  · intro s hs
    unfold bfsStepsDetailed
    rw [hs]
    rfl

/-- Witness for C8 on the sample DAG started at its first node. -/
theorem c8_bfs_queue_all_visited_witness :
    (bfsStepsDetailed createSampleDAG.1 createSampleDAG.2 none).head? =
      some ⟨"A", ["A"], setA (initVisited createSampleDAG.1) "A" 1⟩ :=
  (c8_bfs_queue_all_visited createSampleDAG.1 createSampleDAG.2 none).2 "A" (by decide)

/-- An id that is bound to `none` in the visited map is never entered by
the detailed DFS loop: it stays unbound in the threaded map and in every
record, and no record names it as current node. -/
theorem dfsDetGo_unbound (adj : String → List String) (t : String) :
    ∀ fuel pending vis stack,
      getA vis t = none →
      getA (dfsDetGo adj fuel pending vis stack).2 t = none ∧
      ∀ r ∈ (dfsDetGo adj fuel pending vis stack).1,
        r.currentNode ≠ t ∧ getA r.visited t = none := by
  intro fuel
  induction fuel with
  | zero => simp [dfsDetGo]
  | succ f ih =>
    intro pending vis stack hnone
    match pending with
    | [] => simpa [dfsDetGo] using hnone
    | nb :: rest =>
      simp only [dfsDetGo]
      split_ifs with h0
      · have hnbt : nb ≠ t := by
          intro h
          rw [h, hnone] at h0
          exact Option.noConfusion h0
        have hnone1 : getA (setA vis nb 1) t = none := by
          rw [getA_setA, if_neg (fun h => hnbt h.symm)]
          exact hnone
        obtain ⟨ha1, ha2⟩ := ih (adj nb) (setA vis nb 1) (stack ++ [nb]) hnone1
        obtain ⟨hb1, hb2⟩ := ih rest (dfsDetGo adj f (adj nb) (setA vis nb 1)
          (stack ++ [nb])).2 stack ha1
        refine ⟨hb1, ?_⟩
        intro r hr
        simp only [List.mem_cons, List.mem_append] at hr
        rcases hr with hr | hr | hr | hr | hr
        · subst hr
          exact ⟨hnbt, hnone⟩
        · subst hr
          exact ⟨hnbt, hnone1⟩
        · exact ha2 r hr
        · subst hr
          exact ⟨hnbt, ha1⟩
        · exact hb2 r hr
      · exact ih rest vis stack hnone

/-- The BFS neighbour loop never binds an unbound id, never enqueues it,
and no emitted record binds it. -/
theorem bfsNbrs_unbound (current t : String) :
    ∀ pending queue vis,
      getA vis t = none →
      (∀ z ∈ queue, z ≠ t) →
      getA (bfsNbrs current pending queue vis).2.2 t = none ∧
      (∀ z ∈ (bfsNbrs current pending queue vis).2.1, z ≠ t) ∧
      (∀ r ∈ (bfsNbrs current pending queue vis).1, getA r.visited t = none) := by
  intro pending
  induction pending with
  | nil =>
    intro queue vis hnone hq
    exact ⟨hnone, hq, by simp [bfsNbrs]⟩
  | cons nb rest ih =>
    intro queue vis hnone hq
    simp only [bfsNbrs]
    split_ifs with h0
    · have hnbt : nb ≠ t := by
        intro h
        rw [h, hnone] at h0
        exact Option.noConfusion h0
      have hnone1 : getA (setA vis nb 1) t = none := by
        rw [getA_setA, if_neg (fun h => hnbt h.symm)]
        exact hnone
      have hq1 : ∀ z ∈ queue ++ [nb], z ≠ t := by
        intro z hz
        rcases List.mem_append.mp hz with hz | hz
        · exact hq z hz
        · simp only [List.mem_singleton] at hz
          subst hz
          exact hnbt
      obtain ⟨ha1, ha2, ha3⟩ := ih (queue ++ [nb]) (setA vis nb 1) hnone1 hq1
      refine ⟨ha1, ha2, ?_⟩
      intro r hr
      rcases List.mem_cons.mp hr with hr | hr
      · subst hr
        exact hnone1
      · exact ha3 r hr
    · exact ih queue vis hnone hq

/-- The BFS loop never visits, binds or names an id unbound in the visited
map (and absent from the queue). -/
theorem bfsLoop_unbound (adj : String → List String) (t : String) :
    ∀ fuel queue vis,
      getA vis t = none →
      (∀ z ∈ queue, z ≠ t) →
      ∀ r ∈ bfsLoop adj fuel queue vis,
        r.currentNode ≠ t ∧ getA r.visited t = none := by
  intro fuel
  induction fuel with
  | zero => simp [bfsLoop]
  | succ f ih =>
    intro queue vis hnone hq
    match queue with
    | [] => simp [bfsLoop]
    | current :: rest =>
      simp only [bfsLoop]
      intro r hr
      have hrest : ∀ z ∈ rest, z ≠ t := fun z hz => hq z (List.mem_cons_of_mem _ hz)
      have hcur : current ≠ t := hq current (List.mem_cons_self _ _)
      obtain ⟨hb1, hb2, hb3⟩ := bfsNbrs_unbound current t (adj current) rest vis hnone hrest
      rcases List.mem_cons.mp hr with hr | hr
      · subst hr
        exact ⟨hcur, hnone⟩
      · rcases List.mem_append.mp hr with hr | hr
        · have := hb3 r hr
          refine ⟨?_, this⟩
          have : r.currentNode = current := by
            clear this
            revert hr
            generalize rest = q0
            generalize vis = v0
            induction (adj current) generalizing q0 v0 with
            | nil => simp [bfsNbrs]
            | cons nb rest2 ih2 =>
              intro hr
              simp only [bfsNbrs] at hr
              split_ifs at hr with h0
              · rcases List.mem_cons.mp hr with hr | hr
                · subst hr
                  rfl
                · exact ih2 _ _ hr
              · exact ih2 _ _ hr
          rw [this]
          exact hcur
        · exact ih _ _ hb1 hb2 r hr

theorem mem_buildAdjacencyList (edges : List GraphEdge) (u nb : String) :
    nb ∈ buildAdjacencyList edges u ↔ EdgeStep edges u nb := by
  simp only [buildAdjacencyList, EdgeStep, List.mem_map, List.mem_filter,
    decide_eq_true_eq]
  constructor
  · rintro ⟨e, ⟨h1, h2⟩, h3⟩
    exact ⟨e, h1, h2, h3⟩
  · rintro ⟨e, h1, h2, h3⟩
    exact ⟨e, ⟨h1, h2⟩, h3⟩

/-- The recursion stack read bottom-to-top: consecutive entries are joined
by edges (the head is the most recently pushed node). -/
def StackChain (edges : List GraphEdge) : List String → Prop
  | a :: b :: rest => EdgeStep edges b a ∧ StackChain edges (b :: rest)
  | _ => True

theorem stackChain_reaches (edges : List GraphEdge) :
    ∀ (l : List String) (x : String), StackChain edges (x :: l) →
      ∀ a ∈ x :: l, Reaches edges a x := by
  intro l
  induction l with
  | nil =>
    intro x _ a ha
    simp only [List.mem_singleton] at ha
    subst ha
    exact Relation.ReflTransGen.refl
  | cons b rest ih =>
    intro x hch a ha
    obtain ⟨hstep, htail⟩ := hch
    rcases List.mem_cons.mp ha with ha | ha
    · subst ha
      exact Relation.ReflTransGen.refl
    · exact (ih b htail a ha).tail hstep

/-- Soundness of the cycle DFS: a `true` answer exhibits a directed
cycle (at every fuel). -/
theorem dfsCycGo_sound (edges : List GraphEdge) :
    ∀ (fuel : Nat) (pending vis : List String) (u : String) (st : List String),
      StackChain edges (u :: st) →
      (∀ nb ∈ pending, EdgeStep edges u nb) →
      (dfsCycGo (buildAdjacencyList edges) fuel pending vis (u :: st)).1 = true →
      HasDirCycle edges := by
  intro fuel
  induction fuel with
  | zero => simp [dfsCycGo]
  | succ f ih =>
    intro pending vis u st hch hpend hres
    match pending with
    | [] => simp [dfsCycGo] at hres
    | nb :: rest =>
      simp only [dfsCycGo] at hres
      by_cases hv : nb ∈ vis
      · rw [if_pos hv] at hres
        by_cases hsk : nb ∈ u :: st
        · have hreach : Reaches edges nb u := stackChain_reaches edges st u hch nb hsk
          exact ⟨nb, Relation.TransGen.tail' hreach
            (hpend nb (List.mem_cons_self _ _))⟩
        · rw [if_neg hsk] at hres
          exact ih rest vis u st hch
            (fun x hx => hpend x (List.mem_cons_of_mem _ hx)) hres
      · rw [if_neg hv] at hres
        have hch2 : StackChain edges (nb :: u :: st) :=
          ⟨hpend nb (List.mem_cons_self _ _), hch⟩
        match hrec : dfsCycGo (buildAdjacencyList edges) f
            (buildAdjacencyList edges nb) (nb :: vis) (nb :: u :: st) with
        | (true, vis2) =>
          exact ih (buildAdjacencyList edges nb) (nb :: vis) nb (u :: st) hch2
            (fun x hx => (mem_buildAdjacencyList edges nb x).mp hx)
            (by rw [hrec])
        | (false, vis2) =>
          rw [hrec] at hres
          simp only at hres
          exact ih rest vis2 u st hch
            (fun x hx => hpend x (List.mem_cons_of_mem _ hx)) hres

/-- Soundness of the outer loop. -/
theorem hasCycleLoop_sound (edges : List GraphEdge) (fuel : Nat) :
    ∀ (ids vis : List String),
      hasCycleLoop (buildAdjacencyList edges) fuel ids vis = true →
      HasDirCycle edges := by
  intro ids
  induction ids with
  | nil => simp [hasCycleLoop]
  | cons n rest ih =>
    intro vis hres
    simp only [hasCycleLoop] at hres
    by_cases hv : n ∈ vis
    · rw [if_pos hv] at hres
      exact ih vis hres
    · rw [if_neg hv] at hres
      match hrec : dfsCycGo (buildAdjacencyList edges) fuel
          (buildAdjacencyList edges n) (n :: vis) [n] with
      | (true, vis2) =>
        exact dfsCycGo_sound edges fuel (buildAdjacencyList edges n) (n :: vis) n []
          trivial (fun x hx => (mem_buildAdjacencyList edges n x).mp hx)
          (by rw [hrec])
      | (false, vis2) =>
        rw [hrec] at hres
        simp only at hres
        exact ih vis2 hres

/-- Invariant of the three-colour DFS: the black nodes (visited and not on
the recursion stack) only step to black nodes and lie on no directed
cycle. -/
def CycInv (edges : List GraphEdge) (vis stack : List String) : Prop :=
  (∀ a, a ∈ vis → a ∉ stack → ∀ b, EdgeStep edges a b → b ∈ vis ∧ b ∉ stack) ∧
  (∀ a, a ∈ vis → a ∉ stack → ¬ Relation.TransGen (EdgeStep edges) a a)

/-- A predicate closed under edge steps propagates along reachability. -/
theorem reflTransGen_stays (edges : List GraphEdge) (P : String → Prop)
    (hP : ∀ a, P a → ∀ b, EdgeStep edges a b → P b) :
    ∀ a b, Relation.ReflTransGen (EdgeStep edges) a b → P a → P b := by
  intro a b hab
  induction hab with
  | refl => exact id
  | tail _ hstep ih => exact fun ha => hP _ (ih ha) _ hstep

/-- Pushing an unvisited node onto the stack (and into the visited set)
leaves the black set unchanged, so the invariant carries over. -/
theorem cycInv_push (edges : List GraphEdge) (vis stack : List String) (nb : String)
    (hInv : CycInv edges vis stack) (hnb : nb ∉ vis) :
    CycInv edges (nb :: vis) (nb :: stack) := by
  obtain ⟨hclose, hacyc⟩ := hInv
  constructor
  · intro a ha hast b hstep
    have hane : a ≠ nb := fun h => hast (h ▸ List.mem_cons_self _ _)
    have ha2 : a ∈ vis := by
      rcases List.mem_cons.mp ha with h | h
      · exact absurd h hane
      · exact h
    have hast2 : a ∉ stack := fun h => hast (List.mem_cons_of_mem _ h)
    obtain ⟨hb1, hb2⟩ := hclose a ha2 hast2 b hstep
    have hbne : b ≠ nb := fun h => hnb (h ▸ hb1)
    exact ⟨List.mem_cons_of_mem _ hb1,
      fun h => (List.mem_cons.mp h).elim hbne hb2⟩
  · intro a ha hast
    have hane : a ≠ nb := fun h => hast (h ▸ List.mem_cons_self _ _)
    have ha2 : a ∈ vis := by
      rcases List.mem_cons.mp ha with h | h
      · exact absurd h hane
      · exact h
    exact hacyc a ha2 (fun h => hast (List.mem_cons_of_mem _ h))

/-- Popping a node whose neighbours are all settled (visited, off the
extended stack) moves it from grey to black while keeping the invariant. -/
theorem cycInv_pop (edges : List GraphEdge) (vis2 : List String) (u : String)
    (st : List String)
    (hInv : CycInv edges vis2 (u :: st))
    (hsettle : ∀ nb, EdgeStep edges u nb → nb ∈ vis2 ∧ nb ∉ u :: st) :
    CycInv edges vis2 st := by
  obtain ⟨hclose, hacyc⟩ := hInv
  have hPclosed : ∀ a, (a ∈ vis2 ∧ a ∉ u :: st) → ∀ b, EdgeStep edges a b →
      (b ∈ vis2 ∧ b ∉ u :: st) :=
    fun a ha b hstep => hclose a ha.1 ha.2 b hstep
  constructor
  · intro a ha hast b hstep
    by_cases hau : a = u
    · subst hau
      obtain ⟨hb1, hb2⟩ := hsettle b hstep
      exact ⟨hb1, fun h => hb2 (List.mem_cons_of_mem _ h)⟩
    · obtain ⟨hb1, hb2⟩ := hclose a ha
        (fun h => (List.mem_cons.mp h).elim hau hast) b hstep
      exact ⟨hb1, fun h => hb2 (List.mem_cons_of_mem _ h)⟩
  · intro a ha hast hcyc
    by_cases hau : a = u
    · rcases transGen_head_decomp hcyc with ⟨c, hstep, hreach⟩
      have hstepu : EdgeStep edges u c := hau ▸ hstep
      have hPc : c ∈ vis2 ∧ c ∉ u :: st := hsettle c hstepu
      have hPa : a ∈ vis2 ∧ a ∉ u :: st :=
        reflTransGen_stays edges _ hPclosed c a hreach hPc
      exact hPa.2 (by rw [hau]; exact List.mem_cons_self u st)
    · exact hacyc a ha (fun h => (List.mem_cons.mp h).elim hau hast) hcyc

/-- Weighted count of the not-yet-visited candidate nodes: each costs one
entry step plus one step per outgoing adjacency entry.  This measures the
fuel the cycle DFS can still consume. -/
def muC (adj : String → List String) (UU : Finset String) (vis : List String) : Nat :=
  (UU.filter (fun u => u ∉ vis)).sum (fun u => 1 + (adj u).length)

theorem muC_mono (adj : String → List String) (UU : Finset String)
    (vis vis2 : List String) (h : ∀ x ∈ vis, x ∈ vis2) :
    muC adj UU vis2 ≤ muC adj UU vis := by
  apply Finset.sum_le_sum_of_subset
  intro x hx
  simp only [Finset.mem_filter] at hx ⊢
  exact ⟨hx.1, fun hmem => hx.2 (h x hmem)⟩

theorem muC_cons (adj : String → List String) (UU : Finset String)
    (vis : List String) (nb : String) (hU : nb ∈ UU) (hnb : nb ∉ vis) :
    muC adj UU (nb :: vis) + (1 + (adj nb).length) = muC adj UU vis := by
  have hmem : nb ∈ UU.filter (fun u => u ∉ vis) := by
    simp only [Finset.mem_filter]
    exact ⟨hU, hnb⟩
  have herase : UU.filter (fun u => u ∉ nb :: vis) =
      (UU.filter (fun u => u ∉ vis)).erase nb := by
    ext x
    simp only [Finset.mem_filter, Finset.mem_erase, List.mem_cons]
    constructor
    · rintro ⟨h1, h2⟩
      exact ⟨fun h => h2 (Or.inl h), h1, fun h => h2 (Or.inr h)⟩
    · rintro ⟨h1, h2, h3⟩
      exact ⟨h2, fun h => h.elim h1 h3⟩
  rw [muC, herase]
  exact Finset.sum_erase_add _ _ hmem

/-- Completeness workhorse: from a state satisfying the invariant, with
enough fuel, a `false` answer of the cycle DFS yields a final visited set
that still satisfies the invariant, contains the old one, and settles
every pending neighbour of the node being processed. -/
theorem dfsCycGo_complete (edges : List GraphEdge) (UU : Finset String)
    (hUclosed : ∀ a b, EdgeStep edges a b → b ∈ UU) :
    ∀ (fuel : Nat) (pending vis : List String) (u : String) (st vis2 : List String),
      (∀ nb ∈ pending, EdgeStep edges u nb) →
      (∀ x ∈ u :: st, x ∈ vis) →
      CycInv edges vis (u :: st) →
      pending.length + muC (buildAdjacencyList edges) UU vis < fuel →
      dfsCycGo (buildAdjacencyList edges) fuel pending vis (u :: st) = (false, vis2) →
      (∀ x ∈ vis, x ∈ vis2) ∧ CycInv edges vis2 (u :: st) ∧
      (∀ nb ∈ pending, nb ∈ vis2 ∧ nb ∉ u :: st) := by
  intro fuel
  induction fuel with
  | zero =>
    intro pending vis u st vis2 _ _ _ hfuel _
    omega
  | succ f ih =>
    intro pending vis u st vis2 hpend hsub hInv hfuel heq
    match pending with
    | [] =>
      simp only [dfsCycGo, Prod.mk.injEq] at heq
      rw [← heq.2]
      exact ⟨fun x hx => hx, hInv, by simp⟩
    | nb :: rest =>
      simp only [dfsCycGo] at heq
      by_cases hv : nb ∈ vis
      · rw [if_pos hv] at heq
        by_cases hsk : nb ∈ u :: st
        · rw [if_pos hsk] at heq
          simp at heq
        · rw [if_neg hsk] at heq
          have hfuel2 : rest.length + muC (buildAdjacencyList edges) UU vis < f := by
            simp only [List.length_cons] at hfuel
            omega
          obtain ⟨o1, o2, o3⟩ := ih rest vis u st vis2
            (fun x hx => hpend x (List.mem_cons_of_mem _ hx)) hsub hInv hfuel2 heq
          refine ⟨o1, o2, ?_⟩
          intro x hx
          rcases List.mem_cons.mp hx with hx | hx
          · subst hx
            exact ⟨o1 x hv, hsk⟩
          · exact o3 x hx
      · rw [if_neg hv] at heq
        have hstep : EdgeStep edges u nb := hpend nb (List.mem_cons_self _ _)
        have hUnb : nb ∈ UU := hUclosed u nb hstep
        have hmu : muC (buildAdjacencyList edges) UU (nb :: vis) +
            (1 + (buildAdjacencyList edges nb).length) =
            muC (buildAdjacencyList edges) UU vis :=
          muC_cons _ UU vis nb hUnb hv
        cases hrec : dfsCycGo (buildAdjacencyList edges) f
            (buildAdjacencyList edges nb) (nb :: vis) (nb :: u :: st) with
        | mk b innerv =>
          rw [hrec] at heq
          cases b with
          | true => simp at heq
          | false =>
            simp only at heq
            have hsub2 : ∀ x ∈ nb :: u :: st, x ∈ nb :: vis := by
              intro x hx
              rcases List.mem_cons.mp hx with hx | hx
              · exact hx ▸ List.mem_cons_self _ _
              · exact List.mem_cons_of_mem _ (hsub x hx)
            have hInv2 : CycInv edges (nb :: vis) (nb :: u :: st) :=
              cycInv_push edges vis (u :: st) nb hInv hv
            have hfuel3 : (buildAdjacencyList edges nb).length +
                muC (buildAdjacencyList edges) UU (nb :: vis) < f := by
              simp only [List.length_cons] at hfuel
              omega
            obtain ⟨p1, p2, p3⟩ := ih (buildAdjacencyList edges nb) (nb :: vis)
              nb (u :: st) innerv
              (fun x hx => (mem_buildAdjacencyList edges nb x).mp hx)
              hsub2 hInv2 hfuel3 hrec
            have hInv3 : CycInv edges innerv (u :: st) := by
              apply cycInv_pop edges innerv nb (u :: st) p2
              intro x hx
              exact p3 x ((mem_buildAdjacencyList edges nb x).mpr hx)
            have hsubv2 : ∀ x ∈ vis, x ∈ innerv :=
              fun x hx => p1 x (List.mem_cons_of_mem _ hx)
            have hsub3 : ∀ x ∈ u :: st, x ∈ innerv := fun x hx => hsubv2 x (hsub x hx)
            have hmu2 : muC (buildAdjacencyList edges) UU innerv ≤
                muC (buildAdjacencyList edges) UU (nb :: vis) :=
              muC_mono _ UU _ _ p1
            have hfuel4 : rest.length + muC (buildAdjacencyList edges) UU innerv < f := by
              simp only [List.length_cons] at hfuel
              omega
            obtain ⟨q1, q2, q3⟩ := ih rest innerv u st vis2
              (fun x hx => hpend x (List.mem_cons_of_mem _ hx)) hsub3 hInv3 hfuel4 heq
            refine ⟨fun x hx => q1 x (hsubv2 x hx), q2, ?_⟩
            intro x hx
            rcases List.mem_cons.mp hx with hx | hx
            · subst hx
              refine ⟨q1 x (p1 x (List.mem_cons_self _ _)), ?_⟩
              intro hmem
              exact hv (hsub x hmem)
            · exact q3 x hx

theorem muC_le_total (adj : String → List String) (UU : Finset String)
    (vis : List String) :
    muC adj UU vis ≤ UU.sum (fun u => 1 + (adj u).length) :=
  Finset.sum_le_sum_of_subset (Finset.filter_subset _ _)

theorem sum_adj_length_le (edges : List GraphEdge) (UU : Finset String) :
    (UU.sum fun u => (buildAdjacencyList edges u).length) ≤ edges.length := by
  induction edges with
  | nil => simp [buildAdjacencyList]
  | cons e rest ih =>
    have hstep : ∀ u : String, (buildAdjacencyList (e :: rest) u).length =
        (if e.source = u then 1 else 0) + (buildAdjacencyList rest u).length := by
      intro u
      simp only [buildAdjacencyList, List.filter_cons]
      by_cases h : e.source = u
      · simp only [h, decide_True, if_true, List.length_map, List.length_cons]
        omega
      · simp [h]
    calc UU.sum (fun u => (buildAdjacencyList (e :: rest) u).length)
        = UU.sum (fun u => (if e.source = u then 1 else 0) +
            (buildAdjacencyList rest u).length) :=
          Finset.sum_congr rfl (fun u _ => hstep u)
      _ = UU.sum (fun u => if e.source = u then 1 else 0) +
            UU.sum (fun u => (buildAdjacencyList rest u).length) :=
          Finset.sum_add_distrib
      _ ≤ 1 + rest.length := by
          refine Nat.add_le_add ?_ ih
          rw [Finset.sum_ite_eq]
          split_ifs <;> omega
      _ = (e :: rest).length := by
          simp [List.length_cons, Nat.add_comm]

/-- Completeness of the outer loop: on a `false` run every listed id ends
up visited and the invariant holds with an empty stack. -/
theorem hasCycleLoop_complete (edges : List GraphEdge) (UU : Finset String)
    (hUclosed : ∀ a b, EdgeStep edges a b → b ∈ UU) (F : Nat)
    (hF : ∀ x : String, (buildAdjacencyList edges x).length +
      (UU.sum fun z => 1 + (buildAdjacencyList edges z).length) < F) :
    ∀ (ids vis : List String),
      CycInv edges vis [] →
      hasCycleLoop (buildAdjacencyList edges) F ids vis = false →
      ∃ vis2, (∀ x ∈ ids, x ∈ vis2) ∧ (∀ x ∈ vis, x ∈ vis2) ∧
        CycInv edges vis2 [] := by
  intro ids
  induction ids with
  | nil =>
    intro vis hInv _
    exact ⟨vis, by simp, fun x hx => hx, hInv⟩
  | cons n rest ih =>
    intro vis hInv hres
    simp only [hasCycleLoop] at hres
    by_cases hv : n ∈ vis
    · rw [if_pos hv] at hres
      obtain ⟨vis2, h1, h2, h3⟩ := ih vis hInv hres
      refine ⟨vis2, ?_, h2, h3⟩
      intro x hx
      rcases List.mem_cons.mp hx with hx | hx
      · exact hx ▸ h2 n hv
      · exact h1 x hx
    · rw [if_neg hv] at hres
      cases hrec : dfsCycGo (buildAdjacencyList edges) F
          (buildAdjacencyList edges n) (n :: vis) [n] with
      | mk b innerv =>
        rw [hrec] at hres
        cases b with
        | true => simp at hres
        | false =>
          simp only at hres
          have hfuel : (buildAdjacencyList edges n).length +
              muC (buildAdjacencyList edges) UU (n :: vis) < F := by
            have := muC_le_total (buildAdjacencyList edges) UU (n :: vis)
            have := hF n
            omega
          obtain ⟨p1, p2, p3⟩ := dfsCycGo_complete edges UU hUclosed F
            (buildAdjacencyList edges n) (n :: vis) n [] innerv
            (fun x hx => (mem_buildAdjacencyList edges n x).mp hx)
            (by intro x hx; simp only [List.mem_singleton] at hx
                exact hx ▸ List.mem_cons_self _ _)
            (cycInv_push edges vis [] n hInv hv) hfuel hrec
          have hInv2 : CycInv edges innerv [] := by
            apply cycInv_pop edges innerv n [] p2
            intro x hx
            exact p3 x ((mem_buildAdjacencyList edges n x).mpr hx)
          obtain ⟨vis2, q1, q2, q3⟩ := ih innerv hInv2 hres
          refine ⟨vis2, ?_, fun x hx => q2 x (p1 x (List.mem_cons_of_mem _ hx)), q3⟩
          intro x hx
          rcases List.mem_cons.mp hx with hx | hx
          · exact hx ▸ q2 n (p1 n (List.mem_cons_self _ _))
          · exact q1 x hx

/-- C3: under the data-model assumption that edge endpoints name existing
nodes, `hasCycle` returns false exactly when the graph has no directed
cycle (so every acyclic graph, diamonds included, passes, and any cycle —
a self-loop included — is flagged). -/
theorem c3_hasCycle_iff_no_cycle (nodes : List GraphNode) (edges : List GraphEdge)
    (hWF : ∀ e ∈ edges, e.source ∈ nodes.map (fun n => n.id) ∧
      e.target ∈ nodes.map (fun n => n.id)) :
    hasCycle nodes edges = false ↔ ¬ HasDirCycle edges := by
  constructor
  · intro hfalse
    rintro ⟨v, hv⟩
    unfold hasCycle at hfalse
    have hUclosed : ∀ a b, EdgeStep edges a b →
        b ∈ (nodes.map (fun n => n.id) ++ edges.map
          (fun e => e.target)).toFinset := by
      rintro a b ⟨e, he, _, htgt⟩
      rw [List.mem_toFinset, List.mem_append]
      exact Or.inr (htgt ▸ List.mem_map_of_mem _ he)
    have hF : ∀ x : String, (buildAdjacencyList edges x).length +
        (((nodes.map (fun n => n.id) ++ edges.map (fun e => e.target)).toFinset).sum
          fun z => 1 + (buildAdjacencyList edges z).length) <
        nodes.length + 3 * edges.length + 1 := by
      intro x
      have h1 : (buildAdjacencyList edges x).length ≤ edges.length := by
        simp only [buildAdjacencyList, List.length_map]
        exact List.length_filter_le _ _
      have h2 : (((nodes.map (fun n => n.id) ++ edges.map
          (fun e => e.target)).toFinset).sum
            fun z => 1 + (buildAdjacencyList edges z).length) ≤
          (nodes.length + edges.length) + edges.length := by
        calc (((nodes.map (fun n => n.id) ++ edges.map
            (fun e => e.target)).toFinset).sum
              fun z => 1 + (buildAdjacencyList edges z).length)
            = ((nodes.map (fun n => n.id) ++ edges.map
                (fun e => e.target)).toFinset).card +
              (((nodes.map (fun n => n.id) ++ edges.map
                (fun e => e.target)).toFinset).sum
                  fun z => (buildAdjacencyList edges z).length) := by
              rw [Finset.sum_add_distrib, Finset.sum_const, smul_eq_mul,
                Nat.mul_one]
          _ ≤ (nodes.length + edges.length) + edges.length := by
              refine Nat.add_le_add ?_ (sum_adj_length_le edges _)
              calc ((nodes.map (fun n => n.id) ++ edges.map
                  (fun e => e.target)).toFinset).card
                  ≤ (nodes.map (fun n => n.id) ++ edges.map
                    (fun e => e.target)).length := List.toFinset_card_le _
                _ = nodes.length + edges.length := by simp
      omega
    obtain ⟨vis2, hids, _, hInv⟩ := hasCycleLoop_complete edges _ hUclosed
      (nodes.length + 3 * edges.length + 1) hF (nodes.map (fun n => n.id)) []
      ⟨fun a ha => absurd ha (List.not_mem_nil a),
        fun a ha => absurd ha (List.not_mem_nil a)⟩ hfalse
    rcases transGen_head_decomp hv with ⟨c, hstep, _⟩
    rcases hstep with ⟨e, he, hsrc, _⟩
    have hvmem : v ∈ nodes.map (fun n => n.id) := hsrc ▸ (hWF e he).1
    exact hInv.2 v (hids v hvmem) (List.not_mem_nil v) hv
  · intro hnc
    cases hcase : hasCycle nodes edges with
    | false => rfl
    | true =>
      unfold hasCycle at hcase
      exact absurd (hasCycleLoop_sound edges (nodes.length + 3 * edges.length + 1)
        (nodes.map (fun n => n.id)) [] hcase) hnc

/-- Witness for C3: the sample diamond-plus-tail DAG. -/
theorem c3_hasCycle_iff_no_cycle_witness :
    hasCycle createSampleDAG.1 createSampleDAG.2 = false ↔
      ¬ HasDirCycle createSampleDAG.2 :=
  c3_hasCycle_iff_no_cycle createSampleDAG.1 createSampleDAG.2 (by decide)

/-- C10: when the start resolves to a node of the list and `t` is a
dangling edge target (absent from the node list), neither the detailed DFS
nor the detailed BFS ever makes `t` the current node or maps it to 1 in
any record's visited map (the unvisited check `get(x) === 0` fails on the
unbound `t`, so traversal never crosses it); `hasCycle`, in contrast, does
traverse dangling targets: with single node A and edges A→X, X→X it
reports the cycle through the dangling X. -/
theorem c10_dangling_targets_not_traversed (nodes : List GraphNode)
    (edges : List GraphEdge) (startNodeId : Option String) (s t : String)
    (hstart : resolveStart nodes startNodeId = some s)
    (hs : s ∈ nodes.map (fun n => n.id))
    (ht : t ∉ nodes.map (fun n => n.id))
    (hdangle : ∃ e ∈ edges, e.target = t) :
    (∀ r ∈ dfsStepsDetailed nodes edges startNodeId,
      r.currentNode ≠ t ∧ getA r.visited t ≠ some 1) ∧
    (∀ r ∈ bfsStepsDetailed nodes edges startNodeId,
      r.currentNode ≠ t ∧ getA r.visited t ≠ some 1) ∧
    hasCycle [⟨"A", "A"⟩] [⟨"e1", "A", "X"⟩, ⟨"e2", "X", "X"⟩] = true := by
  have hst : s ≠ t := fun h => ht (h ▸ hs)
  have hvis0 : getA (initVisited nodes) t = none := by
    rw [getA_initVisited, if_neg ht]
  have hvis1 : getA (setA (initVisited nodes) s 1) t = none := by
    rw [getA_setA, if_neg (fun h => hst h.symm)]
    exact hvis0
  refine ⟨?_, ?_, by decide⟩
  · intro r hr
    unfold dfsStepsDetailed at hr
    rw [hstart] at hr
    simp only [List.mem_cons, List.mem_append] at hr
    obtain ⟨ha1, ha2⟩ := dfsDetGo_unbound (buildAdjacencyList edges) t
      (nodes.length + 2 * edges.length + 1) (buildAdjacencyList edges s)
      (setA (initVisited nodes) s 1) [s] hvis1
    rcases hr with hr | hr | hr | hr | hr
    · subst hr
      exact ⟨hst, by rw [hvis0]; exact fun h => Option.noConfusion h⟩
    · subst hr
      exact ⟨hst, by rw [hvis1]; exact fun h => Option.noConfusion h⟩
    · obtain ⟨h1, h2⟩ := ha2 r hr
      exact ⟨h1, by rw [h2]; exact fun h => Option.noConfusion h⟩
    · subst hr
      exact ⟨hst, by rw [ha1]; exact fun h => Option.noConfusion h⟩
    · simp at hr
  · intro r hr
    unfold bfsStepsDetailed at hr
    rw [hstart] at hr
    simp only [List.mem_cons] at hr
    rcases hr with hr | hr
    · subst hr
      exact ⟨hst, by rw [hvis1]; exact fun h => Option.noConfusion h⟩
    · obtain ⟨h1, h2⟩ := bfsLoop_unbound (buildAdjacencyList edges) t
        (2 * nodes.length + 2) [s] (setA (initVisited nodes) s 1) hvis1
        (by intro z hz; simp only [List.mem_singleton] at hz; subst hz; exact hst)
        r hr
      exact ⟨h1, by rw [h2]; exact fun h => Option.noConfusion h⟩

/-- Witness for C10: the sample DAG extended with a dangling edge E→X. -/
theorem c10_dangling_targets_not_traversed_witness :
    (∀ r ∈ dfsStepsDetailed createSampleDAG.1
        (createSampleDAG.2 ++ [⟨"e6", "E", "X"⟩]) none,
      r.currentNode ≠ "X" ∧ getA r.visited "X" ≠ some 1) ∧
    (∀ r ∈ bfsStepsDetailed createSampleDAG.1
        (createSampleDAG.2 ++ [⟨"e6", "E", "X"⟩]) none,
      r.currentNode ≠ "X" ∧ getA r.visited "X" ≠ some 1) ∧
    hasCycle [⟨"A", "A"⟩] [⟨"e1", "A", "X"⟩, ⟨"e2", "X", "X"⟩] = true :=
  c10_dangling_targets_not_traversed createSampleDAG.1
    (createSampleDAG.2 ++ [⟨"e6", "E", "X"⟩]) none "A" "X"
    (by decide) (by decide) (by decide)
    ⟨⟨"e6", "E", "X"⟩, by decide, rfl⟩

/-- Basic facts threaded through the detailed DFS loop: the visited map
only ever flips 0-entries to 1, every record's visited map lies between
the entry map and the final map, and every record's current node is a node
freshly marked during this call (it was 0 on entry and is 1 at the end). -/
theorem dfsDetGo_basic (adj : String → List String) :
    ∀ (fuel : Nat) (pending : List String) (vis : List (String × Nat))
      (stack : List String) (tr : List DFSStep) (vis2 : List (String × Nat)),
      dfsDetGo adj fuel pending vis stack = (tr, vis2) →
      (∀ k, getA vis2 k = getA vis k ∨
        (getA vis k = some 0 ∧ getA vis2 k = some 1)) ∧
      (∀ r ∈ tr, ∀ k, getA r.visited k = getA vis k ∨
        (getA vis k = some 0 ∧ getA r.visited k = some 1)) ∧
      (∀ r ∈ tr, ∀ k, getA r.visited k = some 1 → getA vis2 k = some 1) ∧
      (∀ r ∈ tr, getA vis r.currentNode = some 0 ∧
        getA vis2 r.currentNode = some 1) := by
  intro fuel
  induction fuel with
  | zero =>
    intro pending vis stack tr vis2 heq
    simp only [dfsDetGo, Prod.mk.injEq] at heq
    obtain ⟨h1, h2⟩ := heq
    subst h1 h2
    exact ⟨fun k => Or.inl rfl, by simp, by simp, by simp⟩
  | succ f ih =>
    intro pending vis stack tr vis2 heq
    match pending with
    | [] =>
      simp only [dfsDetGo, Prod.mk.injEq] at heq
      obtain ⟨h1, h2⟩ := heq
      subst h1 h2
      exact ⟨fun k => Or.inl rfl, by simp, by simp, by simp⟩
    | nb :: rest =>
      simp only [dfsDetGo] at heq
      by_cases h0 : getA vis nb = some 0
      · rw [if_pos h0] at heq
        cases hin : dfsDetGo adj f (adj nb) (setA vis nb 1) (stack ++ [nb]) with
        | mk mid vism =>
          rw [hin] at heq
          cases hout : dfsDetGo adj f rest vism stack with
          | mk tr2 visf =>
            rw [hout] at heq
            simp only [Prod.mk.injEq] at heq
            obtain ⟨h1, h2⟩ := heq
            subst h1 h2
            obtain ⟨a1, a2, a3, a4⟩ := ih (adj nb) (setA vis nb 1) (stack ++ [nb])
              mid vism hin
            obtain ⟨b1, b2, b3, b4⟩ := ih rest vism stack tr2 visf hout
            have hmark : ∀ k, getA (setA vis nb 1) k = getA vis k ∨
                (getA vis k = some 0 ∧ getA (setA vis nb 1) k = some 1) := by
              intro k
              rw [getA_setA]
              by_cases hk : k = nb
              · subst hk
                exact Or.inr ⟨h0, by simp⟩
              · rw [if_neg hk]
                exact Or.inl rfl
            have hchain : ∀ k, getA vism k = getA vis k ∨
                (getA vis k = some 0 ∧ getA vism k = some 1) := by
              intro k
              rcases a1 k with h | ⟨ha, hb⟩
              · rw [h]
                exact hmark k
              · rcases hmark k with h2 | ⟨h2a, h2b⟩
                · rw [h2] at ha
                  exact Or.inr ⟨ha, hb⟩
                · exact Or.inr ⟨h2a, hb⟩
            have hfinal : ∀ k, getA visf k = getA vis k ∨
                (getA vis k = some 0 ∧ getA visf k = some 1) := by
              intro k
              rcases b1 k with h | ⟨ha, hb⟩
              · rw [h]
                exact hchain k
              · rcases hchain k with h2 | ⟨h2a, h2b⟩
                · rw [h2] at ha
                  exact Or.inr ⟨ha, hb⟩
                · exact Or.inr ⟨h2a, hb⟩
            have hupf : ∀ k, getA vism k = some 1 → getA visf k = some 1 := by
              intro k hk
              rcases b1 k with h | ⟨ha, hb⟩
              · rw [h, hk]
              · exact hb
            have hnbf : getA visf nb = some 1 := by
              apply hupf
              rcases a1 nb with h | ⟨ha, hb⟩
              · rw [h, getA_setA, if_pos rfl]
              · exact hb
            refine ⟨hfinal, ?_, ?_, ?_⟩
            · intro r hr k
              simp only [List.mem_cons, List.mem_append] at hr
              rcases hr with hr | hr | hr | hr | hr
              · subst hr
                exact Or.inl rfl
              · subst hr
                exact hmark k
              · rcases a2 r hr k with h | ⟨ha, hb⟩
                · rw [h]
                  exact hmark k
                · rcases hmark k with h2 | ⟨h2a, h2b⟩
                  · rw [h2] at ha
                    exact Or.inr ⟨ha, hb⟩
                  · exact Or.inr ⟨h2a, hb⟩
              · subst hr
                exact hchain k
              · rcases b2 r hr k with h | ⟨ha, hb⟩
                · rw [h]
                  exact hchain k
                · rcases hchain k with h2 | ⟨h2a, h2b⟩
                  · rw [h2] at ha
                    exact Or.inr ⟨ha, hb⟩
                  · exact Or.inr ⟨h2a, hb⟩
            · intro r hr k hk
              simp only [List.mem_cons, List.mem_append] at hr
              rcases hr with hr | hr | hr | hr | hr
              · subst hr
                simp only at hk
                rcases hfinal k with h | ⟨ha, _⟩
                · rw [h, hk]
                · rw [ha] at hk
                  exact Option.noConfusion hk (fun h => by omega)
              · subst hr
                simp only at hk
                apply hupf
                rcases a1 k with h | ⟨ha, hb⟩
                · rw [h, hk]
                · exact hb
              · exact hupf k (a3 r hr k hk)
              · subst hr
                exact hupf k hk
              · exact b3 r hr k hk
            · intro r hr
              simp only [List.mem_cons, List.mem_append] at hr
              rcases hr with hr | hr | hr | hr | hr
              · subst hr
                exact ⟨h0, hnbf⟩
              · subst hr
                exact ⟨h0, hnbf⟩
              · obtain ⟨c1, c2⟩ := a4 r hr
                have hvk : getA vis r.currentNode = some 0 := by
                  rw [getA_setA] at c1
                  by_cases hk : r.currentNode = nb
                  · rw [if_pos hk] at c1
                    exact Option.noConfusion c1 (fun h => by omega)
                  · rw [if_neg hk] at c1
                    exact c1
                exact ⟨hvk, hupf _ c2⟩
              · subst hr
                exact ⟨h0, hnbf⟩
              · obtain ⟨c1, c2⟩ := b4 r hr
                have hvk : getA vis r.currentNode = some 0 := by
                  rcases hchain r.currentNode with h | ⟨ha, hb⟩
                  · rw [← h]
                    exact c1
                  · rw [hb] at c1
                    exact Option.noConfusion c1 (fun h => by omega)
                exact ⟨hvk, c2⟩
      · rw [if_neg h0] at heq
        exact ih rest vis stack tr vis2 heq

/-- Fuel potential of the detailed DFS: each 0-entry of the visited map
can still cost one entry step plus one step per outgoing adjacency
entry. -/
def phiD (adj : String → List String) (vis : List (String × Nat)) : Nat :=
  ((vis.filter (fun p => p.2 = 0)).map (fun p => 1 + (adj p.1).length)).sum

theorem phiD_setA_one (adj : String → List String) :
    ∀ (vis : List (String × Nat)) (nb : String), getA vis nb = some 0 →
      phiD adj (setA vis nb 1) + (1 + (adj nb).length) = phiD adj vis := by
  intro vis
  induction vis with
  | nil => intro nb h; simp [getA] at h
  | cons p rest ih =>
    intro nb h
    obtain ⟨k1, v1⟩ := p
    by_cases hk : k1 = nb
    · subst hk
      simp only [getA, if_pos rfl] at h
      have hv : v1 = 0 := Option.some.inj h
      subst hv
      simp [setA, phiD, List.filter_cons, Nat.add_comm]
    · simp only [getA, if_neg hk] at h
      have := ih nb h
      by_cases hv : v1 = 0
      · subst hv
        simp only [setA, if_neg hk, phiD, List.filter_cons] at this ⊢
        simp only [decide_True, if_true, List.map_cons, List.sum_cons] at *
        omega
      · simp only [setA, if_neg hk, phiD, List.filter_cons] at this ⊢
        simp only [hv, decide_False, if_false] at *
        exact this

theorem phiD_setA_le (adj : String → List String) :
    ∀ (vis : List (String × Nat)) (nb : String),
      phiD adj (setA vis nb 1) ≤ phiD adj vis := by
  intro vis
  induction vis with
  | nil => intro nb; simp [setA, phiD]
  | cons p rest ih =>
    intro nb
    obtain ⟨k1, v1⟩ := p
    by_cases hk : k1 = nb
    · subst hk
      simp only [setA, if_pos rfl, phiD, List.filter_cons]
      by_cases hv : v1 = 0
      · subst hv
        simp
      · simp [hv]
    · simp only [setA, if_neg hk, phiD, List.filter_cons]
      by_cases hv : v1 = 0
      · subst hv
        simp only [decide_True, if_true, List.map_cons, List.sum_cons]
        have := ih nb
        simp only [phiD] at this
        omega
      · simp only [hv, decide_False, if_false]
        exact ih nb

/-- The detailed DFS only lowers the fuel potential. -/
theorem dfsDetGo_phiD (adj : String → List String) :
    ∀ (fuel : Nat) (pending : List String) (vis : List (String × Nat))
      (stack : List String) (tr : List DFSStep) (vis2 : List (String × Nat)),
      dfsDetGo adj fuel pending vis stack = (tr, vis2) →
      phiD adj vis2 ≤ phiD adj vis := by
  intro fuel
  induction fuel with
  | zero =>
    intro pending vis stack tr vis2 heq
    simp only [dfsDetGo, Prod.mk.injEq] at heq
    rw [← heq.2]
  | succ f ih =>
    intro pending vis stack tr vis2 heq
    match pending with
    | [] =>
      simp only [dfsDetGo, Prod.mk.injEq] at heq
      rw [← heq.2]
    | nb :: rest =>
      simp only [dfsDetGo] at heq
      by_cases h0 : getA vis nb = some 0
      · rw [if_pos h0] at heq
        cases hin : dfsDetGo adj f (adj nb) (setA vis nb 1) (stack ++ [nb]) with
        | mk mid vism =>
          rw [hin] at heq
          cases hout : dfsDetGo adj f rest vism stack with
          | mk tr2 visf =>
            rw [hout] at heq
            simp only [Prod.mk.injEq] at heq
            rw [← heq.2]
            calc phiD adj visf ≤ phiD adj vism := ih rest vism stack tr2 visf hout
              _ ≤ phiD adj (setA vis nb 1) := ih _ _ _ _ _ hin
              _ ≤ phiD adj vis := phiD_setA_le adj vis nb
      · rw [if_neg h0] at heq
        exact ih rest vis stack tr vis2 heq

/-- With enough fuel, the detailed DFS settles every pending neighbour
(none is left bound to 0), every node it marks has all its adjacency
neighbours settled, and every node it marks is adjacency-reachable from
one of the pending neighbours. -/
theorem dfsDetGo_closure (adj : String → List String) :
    ∀ (fuel : Nat) (pending : List String) (vis : List (String × Nat))
      (stack : List String) (tr : List DFSStep) (vis2 : List (String × Nat)),
      pending.length + phiD adj vis < fuel →
      dfsDetGo adj fuel pending vis stack = (tr, vis2) →
      (∀ nb ∈ pending, getA vis2 nb ≠ some 0) ∧
      (∀ k, getA vis k = some 0 → getA vis2 k = some 1 →
        (∀ b ∈ adj k, getA vis2 b ≠ some 0) ∧
        ∃ nb ∈ pending, Relation.ReflTransGen (fun a b => b ∈ adj a) nb k) := by
  intro fuel
  induction fuel with
  | zero =>
    intro pending vis stack tr vis2 hfuel _
    omega
  | succ f ih =>
    intro pending vis stack tr vis2 hfuel heq
    match pending with
    | [] =>
      simp only [dfsDetGo, Prod.mk.injEq] at heq
      obtain ⟨h1, h2⟩ := heq
      subst h1 h2
      refine ⟨by simp, ?_⟩
      intro k hk0 hk1
      rw [hk0] at hk1
      exact absurd hk1 (by simp)
    | nb :: rest =>
      simp only [dfsDetGo] at heq
      by_cases h0 : getA vis nb = some 0
      · rw [if_pos h0] at heq
        cases hin : dfsDetGo adj f (adj nb) (setA vis nb 1) (stack ++ [nb]) with
        | mk mid vism =>
          rw [hin] at heq
          cases hout : dfsDetGo adj f rest vism stack with
          | mk tr2 visf =>
            rw [hout] at heq
            simp only [Prod.mk.injEq] at heq
            obtain ⟨ht, hv⟩ := heq
            subst ht hv
            have hphi : phiD adj (setA vis nb 1) + (1 + (adj nb).length) =
                phiD adj vis := phiD_setA_one adj vis nb h0
            have hphim : phiD adj vism ≤ phiD adj (setA vis nb 1) :=
              dfsDetGo_phiD adj f (adj nb) (setA vis nb 1) (stack ++ [nb]) mid
                vism hin
            have hfin : (adj nb).length + phiD adj (setA vis nb 1) < f := by
              simp only [List.length_cons] at hfuel
              omega
            have hfout : rest.length + phiD adj vism < f := by
              simp only [List.length_cons] at hfuel
              omega
            obtain ⟨i1, i2⟩ := ih (adj nb) (setA vis nb 1) (stack ++ [nb]) mid
              vism hfin hin
            obtain ⟨o1, o2⟩ := ih rest vism stack tr2 visf hfout hout
            obtain ⟨bo1, _, _, _⟩ := dfsDetGo_basic adj f rest vism stack tr2
              visf hout
            obtain ⟨bi1, _, _, _⟩ := dfsDetGo_basic adj f (adj nb)
              (setA vis nb 1) (stack ++ [nb]) mid vism hin
            have hpres : ∀ b, getA vism b ≠ some 0 → getA visf b ≠ some 0 := by
              intro b hb
              rcases bo1 b with h | ⟨ha, hb2⟩
              · rw [h]
                exact hb
              · rw [hb2]
                simp
            have hnbm : getA vism nb = some 1 := by
              rcases bi1 nb with h | ⟨_, hb⟩
              · rw [h, getA_setA, if_pos rfl]
              · exact hb
            have hnbf : getA visf nb = some 1 := by
              rcases bo1 nb with h | ⟨_, hb⟩
              · rw [h]
                exact hnbm
              · exact hb
            constructor
            · intro x hx
              rcases List.mem_cons.mp hx with hx | hx
              · subst hx
                rw [hnbf]
                simp
              · exact o1 x hx
            · intro k hk0 hk1
              by_cases hm : getA vism k = some 1
              · by_cases hknb : k = nb
                · refine ⟨fun b hb => hpres b (i1 b (hknb ▸ hb)), nb,
                    List.mem_cons_self _ _, ?_⟩
                  rw [hknb]
                · have hk0m : getA (setA vis nb 1) k = some 0 := by
                    rw [getA_setA, if_neg hknb]
                    exact hk0
                  obtain ⟨c1, c2⟩ := i2 k hk0m hm
                  refine ⟨fun b hb => hpres b (c1 b hb), ?_⟩
                  obtain ⟨b, hb, hreach⟩ := c2
                  exact ⟨nb, List.mem_cons_self _ _,
                    Relation.ReflTransGen.head hb hreach⟩
              · have hkm0 : getA vism k = some 0 := by
                  rcases bo1 k with h | ⟨ha, _⟩
                  · rw [h] at hk1
                    exact absurd hk1 hm
                  · exact ha
                obtain ⟨c1, c2⟩ := o2 k hkm0 hk1
                refine ⟨c1, ?_⟩
                obtain ⟨b, hb, hreach⟩ := c2
                exact ⟨b, List.mem_cons_of_mem _ hb, hreach⟩
      · rw [if_neg h0] at heq
        have hf2 : rest.length + phiD adj vis < f := by
          simp only [List.length_cons] at hfuel
          omega
        obtain ⟨o1, o2⟩ := ih rest vis stack tr vis2 hf2 heq
        obtain ⟨b1, _, _, _⟩ := dfsDetGo_basic adj f rest vis stack tr vis2 heq
        constructor
        · intro x hx
          rcases List.mem_cons.mp hx with hx | hx
          · subst hx
            rcases b1 x with h | ⟨ha, hb⟩
            · rw [h]
              exact h0
            · exact absurd ha h0
          · exact o1 x hx
        · intro k hk0 hk1
          obtain ⟨c1, c2⟩ := o2 k hk0 hk1
          refine ⟨c1, ?_⟩
          obtain ⟨b, hb, hreach⟩ := c2
          exact ⟨b, List.mem_cons_of_mem _ hb, hreach⟩

theorem dfs_filter_nil (v : String) (l : List DFSStep)
    (h : ∀ r ∈ l, r.currentNode ≠ v) :
    l.filter (fun r => r.currentNode == v) = [] := by
  induction l with
  | nil => rfl
  | cons a rest ih =>
    rw [List.filter_cons,
      if_neg (by simp only [beq_iff_eq]; exact h a (List.mem_cons_self _ _))]
    exact ih (fun r hr => h r (List.mem_cons_of_mem _ hr))

/-- Every node the detailed DFS marks during a call contributes exactly
three records to the call's trace: a push record and a visit record, back
to back, with the node on top of the same stack (unvisited in the first,
visited in the second), and later a pop record with the node gone from
the stack. -/
theorem dfsDetGo_filter (adj : String → List String) :
    ∀ (fuel : Nat) (pending : List String) (vis : List (String × Nat))
      (stack : List String) (tr : List DFSStep) (vis2 : List (String × Nat)),
      (∀ x ∈ stack, getA vis x = some 1) →
      dfsDetGo adj fuel pending vis stack = (tr, vis2) →
      ∀ v, getA vis v = some 0 → getA vis2 v = some 1 →
        ∃ st2 m0 m1 m2 l1 l2,
          tr.filter (fun r => r.currentNode == v) =
            [⟨v, st2 ++ [v], m0⟩, ⟨v, st2 ++ [v], m1⟩, ⟨v, st2, m2⟩] ∧
          v ∉ st2 ∧
          getA m0 v = some 0 ∧ getA m1 v = some 1 ∧ getA m2 v = some 1 ∧
          tr = l1 ++ ⟨v, st2 ++ [v], m0⟩ :: ⟨v, st2 ++ [v], m1⟩ :: l2 := by
  intro fuel
  induction fuel with
  | zero =>
    intro pending vis stack tr vis2 _ heq v hv0 hv1
    simp only [dfsDetGo, Prod.mk.injEq] at heq
    rw [← heq.2] at hv1
    rw [hv0] at hv1
    exact absurd hv1 (by simp)
  | succ f ih =>
    intro pending vis stack tr vis2 hstack heq v hv0 hv1
    match pending with
    | [] =>
      simp only [dfsDetGo, Prod.mk.injEq] at heq
      rw [← heq.2] at hv1
      rw [hv0] at hv1
      exact absurd hv1 (by simp)
    | nb :: rest =>
      simp only [dfsDetGo] at heq
      by_cases h0 : getA vis nb = some 0
      · rw [if_pos h0] at heq
        cases hin : dfsDetGo adj f (adj nb) (setA vis nb 1) (stack ++ [nb]) with
        | mk mid vism =>
          rw [hin] at heq
          cases hout : dfsDetGo adj f rest vism stack with
          | mk tr2 visf =>
            rw [hout] at heq
            simp only [Prod.mk.injEq] at heq
            obtain ⟨ht, hv⟩ := heq
            subst ht hv
            obtain ⟨bi1, bi2, bi3, bi4⟩ := dfsDetGo_basic adj f (adj nb)
              (setA vis nb 1) (stack ++ [nb]) mid vism hin
            obtain ⟨bo1, bo2, bo3, bo4⟩ := dfsDetGo_basic adj f rest vism stack
              tr2 visf hout
            have hnbm : getA vism nb = some 1 := by
              rcases bi1 nb with h | ⟨_, hb⟩
              · rw [h, getA_setA, if_pos rfl]
              · exact hb
            have hmidne : ∀ r ∈ mid, r.currentNode ≠ nb := by
              intro r hr hcontra
              have := (bi4 r hr).1
              rw [hcontra, getA_setA, if_pos rfl] at this
              exact absurd this (by simp)
            have htr2ne : ∀ r ∈ tr2, r.currentNode ≠ nb := by
              intro r hr hcontra
              have := (bo4 r hr).1
              rw [hcontra, hnbm] at this
              exact absurd this (by simp)
            by_cases hvnb : nb = v
            · subst hvnb
              refine ⟨stack, vis, setA vis nb 1, vism, [],
                mid ++ ⟨nb, stack, vism⟩ :: tr2, ?_, ?_, hv0, ?_, hnbm, by simp⟩
              · simp only [List.filter_cons, List.filter_append,
                  beq_self_eq_true, if_pos]
                rw [dfs_filter_nil nb mid hmidne, dfs_filter_nil nb tr2 htr2ne]
                simp
              · intro hmem
                have := hstack nb hmem
                rw [hv0] at this
                exact absurd this (by simp)
              · rw [getA_setA, if_pos rfl]
            · by_cases hm : getA vism v = some 1
              · have hv0m : getA (setA vis nb 1) v = some 0 := by
                  rw [getA_setA,
                    if_neg (show ¬(v = nb) from fun h => hvnb h.symm)]
                  exact hv0
                have hstack2 : ∀ x ∈ stack ++ [nb],
                    getA (setA vis nb 1) x = some 1 := by
                  intro x hx
                  rw [getA_setA]
                  rcases List.mem_append.mp hx with hx | hx
                  · split_ifs with hxe
                    · rfl
                    · exact hstack x hx
                  · simp only [List.mem_singleton] at hx
                    simp [hx]
                obtain ⟨st2, m0, m1, m2, l1, l2, hfil, hnst, hm0, hm1, hm2,
                  hdec⟩ := ih (adj nb) (setA vis nb 1) (stack ++ [nb]) mid vism
                    hstack2 hin v hv0m hm
                have htr2v : ∀ r ∈ tr2, r.currentNode ≠ v := by
                  intro r hr hcontra
                  have := (bo4 r hr).1
                  rw [hcontra, hm] at this
                  exact absurd this (by simp)
                refine ⟨st2, m0, m1, m2,
                  ⟨nb, stack ++ [nb], vis⟩ :: ⟨nb, stack ++ [nb],
                    setA vis nb 1⟩ :: l1,
                  l2 ++ ⟨nb, stack, vism⟩ :: tr2, ?_, hnst, hm0, hm1, hm2, ?_⟩
                · simp only [List.filter_cons, List.filter_append]
                  rw [if_neg (by simp only [beq_iff_eq]; exact hvnb),
                    if_neg (by simp only [beq_iff_eq]; exact hvnb),
                    if_neg (by simp only [beq_iff_eq]; exact hvnb),
                    hfil, dfs_filter_nil v tr2 htr2v]
                  simp
                · rw [hdec]
                  simp [List.append_assoc]
              · have hvm0 : getA vism v = some 0 := by
                  rcases bo1 v with h | ⟨ha, _⟩
                  · rw [h] at hv1
                    exact absurd hv1 hm
                  · exact ha
                have hstack3 : ∀ x ∈ stack, getA vism x = some 1 := by
                  intro x hx
                  have h1 : getA (setA vis nb 1) x = some 1 := by
                    rw [getA_setA]
                    split_ifs with hxe
                    · rfl
                    · exact hstack x hx
                  rcases bi1 x with h | ⟨_, hb⟩
                  · rw [h]
                    exact h1
                  · exact hb
                obtain ⟨st2, m0, m1, m2, l1, l2, hfil, hnst, hm0, hm1, hm2,
                  hdec⟩ := ih rest vism stack tr2 visf hstack3 hout v hvm0 hv1
                have hmidv : ∀ r ∈ mid, r.currentNode ≠ v := by
                  intro r hr hcontra
                  have := (bi4 r hr).2
                  rw [hcontra, hvm0] at this
                  exact absurd this (by simp)
                refine ⟨st2, m0, m1, m2,
                  ⟨nb, stack ++ [nb], vis⟩ :: ⟨nb, stack ++ [nb],
                    setA vis nb 1⟩ :: (mid ++ ⟨nb, stack, vism⟩ :: l1),
                  l2, ?_, hnst, hm0, hm1, hm2, ?_⟩
                · simp only [List.filter_cons, List.filter_append]
                  rw [if_neg (by simp only [beq_iff_eq]; exact hvnb),
                    if_neg (by simp only [beq_iff_eq]; exact hvnb),
                    if_neg (by simp only [beq_iff_eq]; exact hvnb),
                    hfil, dfs_filter_nil v mid hmidv]
                  simp
                · rw [hdec]
                  simp [List.append_assoc]
      · rw [if_neg h0] at heq
        exact ih rest vis stack tr vis2 hstack heq v hv0 hv1

theorem setA_keys (m : List (String × Nat)) (k : String) (v : Nat) :
    (setA m k v).map Prod.fst =
      if k ∈ m.map Prod.fst then m.map Prod.fst else m.map Prod.fst ++ [k] := by
  induction m with
  | nil => simp [setA]
  | cons p rest ih =>
    obtain ⟨k1, v1⟩ := p
    by_cases h : k1 = k
    · subst h
      simp [setA]
    · simp only [setA, if_neg h, List.map_cons, ih, List.mem_cons]
      by_cases hmem : k ∈ rest.map Prod.fst
      · simp [hmem, show ¬(k = k1) from fun hh => h hh.symm]
      · simp [hmem, show ¬(k = k1) from fun hh => h hh.symm]

theorem keysNodup_setA (m : List (String × Nat)) (k : String) (v : Nat)
    (h : (m.map Prod.fst).Nodup) : ((setA m k v).map Prod.fst).Nodup := by
  rw [setA_keys]
  split_ifs with hmem
  · exact h
  · simp [List.nodup_append, h, hmem]

theorem initVisited_keysNodup (nodes : List GraphNode) :
    ((initVisited nodes).map Prod.fst).Nodup := by
  have : ∀ (l : List GraphNode) (m : List (String × Nat)),
      (m.map Prod.fst).Nodup →
      ((l.foldl (fun m n => setA m n.id 0) m).map Prod.fst).Nodup := by
    intro l
    induction l with
    | nil => intro m hm; exact hm
    | cons n rest ih =>
      intro m hm
      exact ih _ (keysNodup_setA m n.id 0 hm)
  exact this nodes [] (by simp)

theorem setA_length_le (m : List (String × Nat)) (k : String) (v : Nat) :
    (setA m k v).length ≤ m.length + 1 := by
  induction m with
  | nil => simp [setA]
  | cons p rest ih =>
    obtain ⟨k1, v1⟩ := p
    by_cases h : k1 = k
    · subst h
      simp [setA]
    · simp only [setA, if_neg h, List.length_cons]
      omega

theorem initVisited_length_le (nodes : List GraphNode) :
    (initVisited nodes).length ≤ nodes.length := by
  have : ∀ (l : List GraphNode) (m : List (String × Nat)),
      (l.foldl (fun m n => setA m n.id 0) m).length ≤ m.length + l.length := by
    intro l
    induction l with
    | nil => intro m; simp
    | cons n rest ih =>
      intro m
      calc ((n :: rest).foldl (fun m n => setA m n.id 0) m).length
          = (rest.foldl (fun m n => setA m n.id 0) (setA m n.id 0)).length := rfl
        _ ≤ (setA m n.id 0).length + rest.length := ih _
        _ ≤ (m.length + 1) + rest.length := by
            have := setA_length_le m n.id 0
            omega
        _ = m.length + (n :: rest).length := by
            simp only [List.length_cons]
            omega
  have h := this nodes []
  simpa using h

theorem phiD_le_entries (adj : String → List String) :
    ∀ (vis : List (String × Nat)),
      phiD adj vis ≤ vis.length + ((vis.map Prod.fst).map
        (fun k => (adj k).length)).sum := by
  intro vis
  induction vis with
  | nil => simp [phiD]
  | cons p rest ih =>
    obtain ⟨k1, v1⟩ := p
    by_cases hv : v1 = 0
    · subst hv
      simp only [phiD, List.filter_cons, decide_True, if_true, List.map_cons,
        List.sum_cons, List.length_cons] at ih ⊢
      omega
    · have hfil : ((k1, v1) :: rest).filter (fun p => decide (p.2 = 0)) =
          rest.filter (fun p => decide (p.2 = 0)) := by
        simp [List.filter_cons, hv]
      simp only [phiD, hfil, List.map_cons, List.sum_cons,
        List.length_cons] at ih ⊢
      omega

theorem nodup_sum_adj_le (edges : List GraphEdge) (keys : List String)
    (h : keys.Nodup) :
    ((keys.map (fun k => (buildAdjacencyList edges k).length)).sum) ≤
      edges.length := by
  rw [← List.sum_toFinset _ h]
  exact sum_adj_length_le edges keys.toFinset

/-- The fuel supplied by `dfsStepsDetailed` strictly dominates the cost of
the root call. -/
theorem dfs_root_fuel (nodes : List GraphNode) (edges : List GraphEdge)
    (s : String) :
    (buildAdjacencyList edges s).length +
      phiD (buildAdjacencyList edges) (setA (initVisited nodes) s 1) <
      nodes.length + 2 * edges.length + 1 := by
  have h1 : (buildAdjacencyList edges s).length ≤ edges.length := by
    simp only [buildAdjacencyList, List.length_map]
    exact List.length_filter_le _ _
  have h2 : phiD (buildAdjacencyList edges) (setA (initVisited nodes) s 1) ≤
      phiD (buildAdjacencyList edges) (initVisited nodes) :=
    phiD_setA_le _ _ _
  have h3 := phiD_le_entries (buildAdjacencyList edges) (initVisited nodes)
  have h4 := nodup_sum_adj_le edges ((initVisited nodes).map Prod.fst)
    (initVisited_keysNodup nodes)
  have h5 := initVisited_length_le nodes
  have h6 : (((initVisited nodes).map Prod.fst).map
      (fun k => (buildAdjacencyList edges k).length)).sum ≤ edges.length := h4
  omega

/-- A node reachable from `a` is `a` itself or the target of some edge. -/
theorem reaches_mem_targets (edges : List GraphEdge) (a b : String)
    (h : Reaches edges a b) : b = a ∨ b ∈ edges.map (fun e => e.target) := by
  induction h with
  | refl => exact Or.inl rfl
  | tail _ hstep _ =>
    obtain ⟨e, he, _, htgt⟩ := hstep
    exact Or.inr (htgt ▸ List.mem_map_of_mem _ he)

/-- C4: with well-formed edges and a start resolving to a listed node,
every node reachable from the start contributes exactly three records to
the detailed DFS trace — a push record (node on top of the stack, still
0 in the visited map) immediately followed by a visit record (same stack,
now 1), and later a pop record whose stack no longer holds the node —
while a node not reachable from the start contributes no record at all
and is never mapped to 1 in any record's visited map. -/
theorem c4_dfs_trace_three_records (nodes : List GraphNode) (edges : List GraphEdge)
    (startNodeId : Option String) (s : String)
    (hstart : resolveStart nodes startNodeId = some s)
    (hs : s ∈ nodes.map (fun n => n.id))
    (hWF : ∀ e ∈ edges, e.source ∈ nodes.map (fun n => n.id) ∧
      e.target ∈ nodes.map (fun n => n.id)) :
    ∀ v,
      (Reaches edges s v →
        ∃ st2 m0 m1 m2 l1 l2,
          (dfsStepsDetailed nodes edges startNodeId).filter
              (fun r => r.currentNode == v) =
            [⟨v, st2 ++ [v], m0⟩, ⟨v, st2 ++ [v], m1⟩, ⟨v, st2, m2⟩] ∧
          v ∉ st2 ∧ getA m0 v = some 0 ∧ getA m1 v = some 1 ∧
          getA m2 v = some 1 ∧
          dfsStepsDetailed nodes edges startNodeId =
            l1 ++ ⟨v, st2 ++ [v], m0⟩ :: ⟨v, st2 ++ [v], m1⟩ :: l2) ∧
      (¬ Reaches edges s v →
        (dfsStepsDetailed nodes edges startNodeId).filter
          (fun r => r.currentNode == v) = [] ∧
        (∀ r ∈ dfsStepsDetailed nodes edges startNodeId,
          getA r.visited v ≠ some 1)) := by
  cases hroot : dfsDetGo (buildAdjacencyList edges)
      (nodes.length + 2 * edges.length + 1) (buildAdjacencyList edges s)
      (setA (initVisited nodes) s 1) [s] with
  | mk mid vis2 =>
    have htrace : dfsStepsDetailed nodes edges startNodeId =
        ⟨s, [s], initVisited nodes⟩ ::
        ⟨s, [s], setA (initVisited nodes) s 1⟩ ::
        (mid ++ [⟨s, [], vis2⟩]) := by
      unfold dfsStepsDetailed
      rw [hstart]
      simp only [hroot]
    obtain ⟨b1, b2, b3, b4⟩ := dfsDetGo_basic (buildAdjacencyList edges)
      (nodes.length + 2 * edges.length + 1) (buildAdjacencyList edges s)
      (setA (initVisited nodes) s 1) [s] mid vis2 hroot
    obtain ⟨c1, c2⟩ := dfsDetGo_closure (buildAdjacencyList edges)
      (nodes.length + 2 * edges.length + 1) (buildAdjacencyList edges s)
      (setA (initVisited nodes) s 1) [s] mid vis2
      (dfs_root_fuel nodes edges s) hroot
    have hvis1s : getA (setA (initVisited nodes) s 1) s = some 1 := by
      rw [getA_setA, if_pos rfl]
    have hv2s : getA vis2 s = some 1 := by
      rcases b1 s with h | ⟨_, hb⟩
      · rw [h]
        exact hvis1s
      · exact hb
    have hv1zero : ∀ k, k ≠ s → getA vis2 k = some 1 →
        getA (setA (initVisited nodes) s 1) k = some 0 := by
      intro k hks hk
      rcases b1 k with h | ⟨ha, _⟩
      · rw [h] at hk
        rw [getA_setA, if_neg hks, getA_initVisited] at hk
        split_ifs at hk <;> exact absurd hk (by simp)
      · exact ha
    have hreach_of_marked : ∀ k, getA vis2 k = some 1 → Reaches edges s k := by
      intro k hk
      by_cases hks : k = s
      · subst hks
        exact Relation.ReflTransGen.refl
      · obtain ⟨_, nb, hnb, hrtg⟩ := c2 k (hv1zero k hks hk) hk
        have hstep : EdgeStep edges s nb :=
          (mem_buildAdjacencyList edges s nb).mp hnb
        have hr2 : Reaches edges nb k :=
          Relation.ReflTransGen.mono
            (fun a b hab => (mem_buildAdjacencyList edges a b).mp hab) hrtg
        exact Relation.ReflTransGen.head hstep hr2
    have hmarked_of_reach : ∀ k, Reaches edges s k → getA vis2 k = some 1 := by
      intro k hk
      induction hk with
      | refl => exact hv2s
      | @tail b c hab hstep ih =>
        obtain ⟨e, he, hsrc, htgt⟩ := hstep
        have hcnod : c ∈ nodes.map (fun n => n.id) := htgt ▸ (hWF e he).2
        have hcadj : c ∈ buildAdjacencyList edges b :=
          (mem_buildAdjacencyList edges b c).mpr ⟨e, he, hsrc, htgt⟩
        have hne0 : getA vis2 c ≠ some 0 := by
          by_cases hbs : b = s
          · exact c1 c (hbs ▸ hcadj)
          · exact (c2 b (hv1zero b hbs ih) ih).1 c hcadj
        by_cases hcs : c = s
        · rw [hcs]
          exact hv2s
        · have hc0 : getA (setA (initVisited nodes) s 1) c = some 0 := by
            rw [getA_setA, if_neg hcs, getA_initVisited, if_pos hcnod]
          rcases b1 c with h | ⟨_, hb⟩
          · rw [h] at hne0
            exact absurd hc0 hne0
          · exact hb
    intro v
    constructor
    · intro hreach
      have hmk : getA vis2 v = some 1 := hmarked_of_reach v hreach
      by_cases hvs : v = s
      · subst hvs
        have hmidne : ∀ r ∈ mid, r.currentNode ≠ v := by
          intro r hr hcontra
          have hb4 := (b4 r hr).1
          rw [hcontra, hvis1s] at hb4
          exact absurd hb4 (by simp)
        refine ⟨[], initVisited nodes, setA (initVisited nodes) v 1, vis2, [],
          mid ++ [⟨v, [], vis2⟩], ?_, by simp, ?_, hvis1s, hmk, ?_⟩
        · rw [htrace]
          simp [List.filter_cons, List.filter_append,
            dfs_filter_nil v mid hmidne]
        · rw [getA_initVisited, if_pos hs]
        · rw [htrace]
          simp
      · have hv0 : getA (setA (initVisited nodes) s 1) v = some 0 :=
          hv1zero v hvs hmk
        have hstackpre : ∀ x ∈ [s], getA (setA (initVisited nodes) s 1) x =
            some 1 := by
          intro x hx
          simp only [List.mem_singleton] at hx
          rw [hx]
          exact hvis1s
        obtain ⟨st2, m0, m1, m2, l1, l2, hfil, hnst, hm0, hm1, hm2, hdec⟩ :=
          dfsDetGo_filter (buildAdjacencyList edges)
            (nodes.length + 2 * edges.length + 1)
            (buildAdjacencyList edges s) (setA (initVisited nodes) s 1) [s]
            mid vis2 hstackpre hroot v hv0 hmk
        refine ⟨st2, m0, m1, m2,
          ⟨s, [s], initVisited nodes⟩ ::
            ⟨s, [s], setA (initVisited nodes) s 1⟩ :: l1,
          l2 ++ [⟨s, [], vis2⟩], ?_, hnst, hm0, hm1, hm2, ?_⟩
        · rw [htrace]
          have hsv : ¬(s = v) := fun h => hvs h.symm
          simp [List.filter_cons, List.filter_append, hsv, hfil]
        · rw [htrace, hdec]
          simp [List.append_assoc]
    · intro hnreach
      have hmk : getA vis2 v ≠ some 1 := fun h => hnreach (hreach_of_marked v h)
      have hvs : v ≠ s := fun h => hnreach (h ▸ Relation.ReflTransGen.refl)
      constructor
      · rw [htrace]
        apply dfs_filter_nil
        intro r hr hcontra
        rcases List.mem_cons.mp hr with hr | hr
        · subst hr
          exact hvs hcontra.symm
        rcases List.mem_cons.mp hr with hr | hr
        · subst hr
          exact hvs hcontra.symm
        rcases List.mem_append.mp hr with hr | hr
        · have hb4 := (b4 r hr).2
          rw [hcontra] at hb4
          exact hmk hb4
        · simp only [List.mem_singleton] at hr
          subst hr
          exact hvs hcontra.symm
      · intro r hr h1
        rw [htrace] at hr
        have hnot0 : getA (initVisited nodes) v ≠ some 1 := by
          rw [getA_initVisited]
          split_ifs <;> simp
        have hnot1 : getA (setA (initVisited nodes) s 1) v ≠ some 1 := by
          rw [getA_setA, if_neg hvs]
          exact hnot0
        rcases List.mem_cons.mp hr with hr | hr
        · subst hr
          exact hnot0 h1
        rcases List.mem_cons.mp hr with hr | hr
        · subst hr
          exact hnot1 h1
        rcases List.mem_append.mp hr with hr | hr
        · exact hmk (b3 r hr v h1)
        · simp only [List.mem_singleton] at hr
          subst hr
          exact hmk h1

/-- Witness for C4 on the sample DAG: D is reachable from A, Z is not. -/
theorem c4_dfs_trace_three_records_witness :
    (∃ st2 m0 m1 m2 l1 l2,
      (dfsStepsDetailed createSampleDAG.1 createSampleDAG.2 none).filter
          (fun r => r.currentNode == "D") =
        [⟨"D", st2 ++ ["D"], m0⟩, ⟨"D", st2 ++ ["D"], m1⟩, ⟨"D", st2, m2⟩] ∧
      "D" ∉ st2 ∧ getA m0 "D" = some 0 ∧ getA m1 "D" = some 1 ∧
      getA m2 "D" = some 1 ∧
      dfsStepsDetailed createSampleDAG.1 createSampleDAG.2 none =
        l1 ++ ⟨"D", st2 ++ ["D"], m0⟩ :: ⟨"D", st2 ++ ["D"], m1⟩ :: l2) ∧
    ((dfsStepsDetailed createSampleDAG.1 createSampleDAG.2 none).filter
        (fun r => r.currentNode == "Z") = [] ∧
      ∀ r ∈ dfsStepsDetailed createSampleDAG.1 createSampleDAG.2 none,
        getA r.visited "Z" ≠ some 1) := by
  have h := c4_dfs_trace_three_records createSampleDAG.1 createSampleDAG.2
    none "A" (by decide) (by decide) (by decide)
  refine ⟨(h "D").1 ?_, (h "Z").2 ?_⟩
  · refine Relation.ReflTransGen.head ⟨⟨"e1", "A", "B"⟩, by decide, rfl, rfl⟩ ?_
    exact Relation.ReflTransGen.head ⟨⟨"e3", "B", "D"⟩, by decide, rfl, rfl⟩
      Relation.ReflTransGen.refl
  · intro hreach
    rcases reaches_mem_targets createSampleDAG.2 "A" "Z" hreach with h | h
    · exact absurd h (by decide)
    · exact absurd h (by decide)

theorem reachesIn_snoc (edges : List GraphEdge) :
    ∀ (n : Nat) (a b c : String), ReachesIn edges n a b → EdgeStep edges b c →
      ReachesIn edges (n + 1) a c := by
  intro n
  induction n with
  | zero =>
    intro a b c hab hbc
    exact ⟨c, hab ▸ hbc, rfl⟩
  | succ m ih =>
    intro a b c hab hbc
    obtain ⟨d, had, hdb⟩ := hab
    exact ⟨d, had, ih d b c hdb hbc⟩

theorem reachesIn_of_reaches (edges : List GraphEdge) (a b : String)
    (h : Reaches edges a b) : ∃ n, ReachesIn edges n a b := by
  induction h with
  | refl => exact ⟨0, rfl⟩
  | tail _ hstep ih =>
    obtain ⟨n, hn⟩ := ih
    exact ⟨n + 1, reachesIn_snoc edges n _ _ _ hn hstep⟩

theorem reaches_of_reachesIn (edges : List GraphEdge) :
    ∀ (n : Nat) (a b : String), ReachesIn edges n a b → Reaches edges a b := by
  intro n
  induction n with
  | zero =>
    intro a b h
    exact h ▸ Relation.ReflTransGen.refl
  | succ m ih =>
    intro a b h
    obtain ⟨c, hac, hcb⟩ := h
    exact Relation.ReflTransGen.head hac (ih c b hcb)

theorem isDist_exists (edges : List GraphEdge) (s v : String)
    (h : Reaches edges s v) : ∃ d, IsDist edges s v d := by
  obtain ⟨n, hn⟩ := reachesIn_of_reaches edges s v h
  have hne : {m | ReachesIn edges m s v}.Nonempty := ⟨n, hn⟩
  exact ⟨sInf {m | ReachesIn edges m s v}, Nat.sInf_mem hne,
    fun m hm => Nat.sInf_le hm⟩

theorem isDist_unique (edges : List GraphEdge) (s v : String) (d1 d2 : Nat)
    (h1 : IsDist edges s v d1) (h2 : IsDist edges s v d2) : d1 = d2 :=
  Nat.le_antisymm (h1.2 d2 h2.1) (h2.2 d1 h1.1)

theorem isDist_self (edges : List GraphEdge) (s : String) : IsDist edges s s 0 :=
  ⟨rfl, fun m _ => Nat.zero_le m⟩

theorem isDist_le_succ (edges : List GraphEdge) (s b c : String) (db dc : Nat)
    (hb : IsDist edges s b db) (hstep : EdgeStep edges b c)
    (hc : IsDist edges s c dc) : dc ≤ db + 1 :=
  hc.2 (db + 1) (reachesIn_snoc edges db s b c hb.1 hstep)

theorem reachesIn_succ_decomp (edges : List GraphEdge) :
    ∀ (n : Nat) (s v : String), ReachesIn edges (n + 1) s v →
      ∃ w, ReachesIn edges n s w ∧ EdgeStep edges w v := by
  intro n
  induction n with
  | zero =>
    intro s v h
    obtain ⟨c, hsc, hcv⟩ := h
    exact ⟨s, rfl, hcv ▸ hsc⟩
  | succ m ih =>
    intro s v h
    obtain ⟨c, hsc, hcv⟩ := h
    obtain ⟨w, hw1, hw2⟩ := ih c v hcv
    exact ⟨w, ⟨c, hsc, hw1⟩, hw2⟩

/-- Crossing lemma: while the start is visited and every visited node's
edges lead to visited nodes except from excused (`Q`) nodes, any
unvisited node `w` reached by a path of length `d` forces an excused
visited node strictly closer than `d`. -/
theorem bfs_crossing (edges : List GraphEdge) (ids : List String)
    (vis : List (String × Nat)) (Q : String → Prop) (s : String)
    (hWF : ∀ e ∈ edges, e.target ∈ ids)
    (hclose : ∀ a, getA vis a = some 1 → ∀ b, EdgeStep edges a b → b ∈ ids →
      getA vis b = some 1 ∨ Q a)
    (hs : getA vis s = some 1) :
    ∀ (d : Nat) (w : String), ReachesIn edges d s w → getA vis w ≠ some 1 →
      ∃ a da, getA vis a = some 1 ∧ Q a ∧ ReachesIn edges da s a ∧ da < d := by
  intro d
  induction d with
  | zero =>
    intro w hw hnm
    rw [← hw] at hnm
    exact absurd hs hnm
  | succ m ih =>
    intro w hw hnm
    obtain ⟨p, hp, hpw⟩ := reachesIn_succ_decomp edges m s w hw
    by_cases hpm : getA vis p = some 1
    · have hwid : w ∈ ids := by
        obtain ⟨e, he, _, htgt⟩ := hpw
        exact htgt ▸ hWF e he
      rcases hclose p hpm w hpw hwid with h | h
      · exact absurd h hnm
      · exact ⟨p, m, hpm, h, hp, Nat.lt_succ_self m⟩
    · obtain ⟨a, da, h1, h2, h3, h4⟩ := ih p hp hpm
      exact ⟨a, da, h1, h2, h3, Nat.lt_succ_of_lt h4⟩

/-- State-level key fact: with closure-modulo-`Q`, a start mark, and the
bound "every visited node's distance is at most one more than any excused
node's distance", every visited node is at least as close as every
unvisited reachable node. -/
theorem bfs_state_key (edges : List GraphEdge) (ids : List String)
    (vis : List (String × Nat)) (Q : String → Prop) (s : String)
    (hWF : ∀ e ∈ edges, e.target ∈ ids)
    (hclose : ∀ a, getA vis a = some 1 → ∀ b, EdgeStep edges a b → b ∈ ids →
      getA vis b = some 1 ∨ Q a)
    (hs : getA vis s = some 1)
    (hQbound : ∀ a, Q a → getA vis a = some 1 →
      ∀ v, getA vis v = some 1 → ∀ dv da, IsDist edges s v dv →
        IsDist edges s a da → dv ≤ da + 1) :
    ∀ v w dv dw, getA vis v = some 1 → getA vis w ≠ some 1 →
      Reaches edges s w → IsDist edges s v dv → IsDist edges s w dw →
      dv ≤ dw := by
  intro v w dv dw hv hw hreach hdv hdw
  obtain ⟨a, da, ha1, ha2, ha3, ha4⟩ := bfs_crossing edges ids vis Q s hWF
    hclose hs dw w hdw.1 hw
  obtain ⟨dista, hdista⟩ := isDist_exists edges s a
    (reaches_of_reachesIn edges da s a ha3)
  have h1 : dv ≤ dista + 1 := hQbound a ha2 ha1 v hv dv dista hdv hdista
  have h2 : dista ≤ da := hdista.2 da ha3
  omega

/-- Per-record correctness for the BFS distance claim: every node the
record marks is reachable from the start, and marked nodes are never
farther from the start than still-unmarked reachable nodes. -/
def RecOK (edges : List GraphEdge) (s : String) (r : BFSStep) : Prop :=
  (∀ k, getA r.visited k = some 1 → Reaches edges s k) ∧
  (∀ v w dv dw, getA r.visited v = some 1 → getA r.visited w ≠ some 1 →
    Reaches edges s w → IsDist edges s v dv → IsDist edges s w dw → dv ≤ dw)

/-- Loop-level BFS invariant (between iterations). -/
structure BfsInv (edges : List GraphEdge) (ids : List String) (s : String)
    (q : List String) (vis : List (String × Nat)) : Prop where
  reach : ∀ k, getA vis k = some 1 → Reaches edges s k
  close : ∀ a, getA vis a = some 1 → ∀ b, EdgeStep edges a b → b ∈ ids →
    getA vis b = some 1 ∨ a ∈ q
  smark : getA vis s = some 1
  qmark : ∀ z ∈ q, getA vis z = some 1
  sorted : q.Pairwise (fun a b => ∀ da db, IsDist edges s a da →
    IsDist edges s b db → da ≤ db)
  mbound : ∀ k, getA vis k = some 1 → ∀ z ∈ q, ∀ dk dz,
    IsDist edges s k dk → IsDist edges s z dz → dk ≤ dz + 1
  idsdom : ∀ k ∈ ids, getA vis k ≠ none
  vals01 : ∀ k, getA vis k = none ∨ getA vis k = some 0 ∨ getA vis k = some 1

/-- Mid-iteration BFS invariant, while the neighbours `pending` of the
dequeued node `c` are being processed against queue `q`. -/
structure BfsMidInv (edges : List GraphEdge) (ids : List String) (s c : String)
    (pending q : List String) (vis : List (String × Nat)) : Prop where
  reach : ∀ k, getA vis k = some 1 → Reaches edges s k
  close : ∀ a, getA vis a = some 1 → ∀ b, EdgeStep edges a b → b ∈ ids →
    getA vis b = some 1 ∨ a ∈ q ∨ (a = c ∧ b ∈ pending)
  smark : getA vis s = some 1
  qmark : ∀ z ∈ q, getA vis z = some 1
  sorted : q.Pairwise (fun a b => ∀ da db, IsDist edges s a da →
    IsDist edges s b db → da ≤ db)
  qlow : ∀ z ∈ q, ∀ dz dc2, IsDist edges s z dz → IsDist edges s c dc2 →
    dc2 ≤ dz
  qhigh : ∀ z ∈ q, ∀ dz dc2, IsDist edges s z dz → IsDist edges s c dc2 →
    dz ≤ dc2 + 1
  mhigh : ∀ k, getA vis k = some 1 → ∀ dk dc2, IsDist edges s k dk →
    IsDist edges s c dc2 → dk ≤ dc2 + 1
  cmark : getA vis c = some 1
  pend : ∀ b ∈ pending, EdgeStep edges c b
  idsdom : ∀ k ∈ ids, getA vis k ≠ none
  vals01 : ∀ k, getA vis k = none ∨ getA vis k = some 0 ∨ getA vis k = some 1

theorem getA_setA_one_pres (vis : List (String × Nat)) (nb k : String)
    (h : getA vis k = some 1) : getA (setA vis nb 1) k = some 1 := by
  rw [getA_setA]
  split_ifs with he
  · rfl
  · exact h

/-- Mid-state instance of the key fact, packaged for reuse: any marked
node is at least as close as any unmarked reachable node. -/
theorem bfsMidInv_key (edges : List GraphEdge) (ids : List String) (s c : String)
    (pending q : List String) (vis : List (String × Nat))
    (hWF : ∀ e ∈ edges, e.target ∈ ids)
    (inv : BfsMidInv edges ids s c pending q vis) :
    ∀ v w dv dw, getA vis v = some 1 → getA vis w ≠ some 1 →
      Reaches edges s w → IsDist edges s v dv → IsDist edges s w dw →
      dv ≤ dw := by
  apply bfs_state_key edges ids vis (fun a => a ∈ q ∨ a = c) s hWF
  · intro a ha b hb hbid
    rcases inv.close a ha b hb hbid with h | h | h
    · exact Or.inl h
    · exact Or.inr (Or.inl h)
    · exact Or.inr (Or.inr h.1)
  · exact inv.smark
  · intro a hQ ha v hv dv da hdv hda
    rcases hQ with hq | hc
    · obtain ⟨dc2, hdc2⟩ := isDist_exists edges s c (inv.reach c inv.cmark)
      have h1 : dv ≤ dc2 + 1 := inv.mhigh v hv dv dc2 hdv hdc2
      have h2 : dc2 ≤ da := inv.qlow a hq da dc2 hda hdc2
      omega
    · exact inv.mhigh v hv dv da hdv (hc ▸ hda)

/-- Processing the neighbour list preserves the invariants: every record
emitted is distance-correct and the resulting queue/visited state
re-establishes the loop-level invariant. -/
theorem bfsNbrs_key (edges : List GraphEdge) (ids : List String) (s c : String)
    (hWF : ∀ e ∈ edges, e.target ∈ ids) :
    ∀ (pending q : List String) (vis : List (String × Nat))
      (recs : List BFSStep) (q2 : List String) (vis2 : List (String × Nat)),
      bfsNbrs c pending q vis = (recs, q2, vis2) →
      BfsMidInv edges ids s c pending q vis →
      (∀ r ∈ recs, RecOK edges s r) ∧ BfsInv edges ids s q2 vis2 := by
  intro pending
  induction pending with
  | nil =>
    intro q vis recs q2 vis2 heq inv
    simp only [bfsNbrs, Prod.mk.injEq] at heq
    obtain ⟨h1, h2, h3⟩ := heq
    subst h1 h2 h3
    refine ⟨by simp, ?_⟩
    refine ⟨inv.reach, ?_, inv.smark, inv.qmark, inv.sorted, ?_, inv.idsdom,
      inv.vals01⟩
    · intro a ha b hb hbid
      rcases inv.close a ha b hb hbid with h | h | h
      · exact Or.inl h
      · exact Or.inr h
      · exact absurd h.2 (List.not_mem_nil b)
    · intro k hk z hz dk dz hdk hdz
      obtain ⟨dc2, hdc2⟩ := isDist_exists edges s c (inv.reach c inv.cmark)
      have h1 : dk ≤ dc2 + 1 := inv.mhigh k hk dk dc2 hdk hdc2
      have h2 : dc2 ≤ dz := inv.qlow z hz dz dc2 hdz hdc2
      omega
  | cons nb rest ih =>
    intro q vis recs q2 vis2 heq inv
    simp only [bfsNbrs] at heq
    by_cases h0 : getA vis nb = some 0
    · rw [if_pos h0] at heq
      cases hrec : bfsNbrs c rest (q ++ [nb]) (setA vis nb 1) with
      | mk recs1 rest1 =>
        rw [hrec] at heq
        simp only [Prod.mk.injEq] at heq
        obtain ⟨h1, h2⟩ := heq
        subst h1 h2
        have hstep : EdgeStep edges c nb := inv.pend nb (List.mem_cons_self _ _)
        have hnm : getA vis nb ≠ some 1 := by
          rw [h0]
          simp
        have hnreach : Reaches edges s nb :=
          (inv.reach c inv.cmark).tail hstep
        have hnbhigh : ∀ dnb dc2, IsDist edges s nb dnb →
            IsDist edges s c dc2 → dnb ≤ dc2 + 1 :=
          fun dnb dc2 hdnb hdc2 => isDist_le_succ edges s c nb dc2 dnb hdc2
            hstep hdnb
        have hnblow : ∀ dnb dc2, IsDist edges s nb dnb →
            IsDist edges s c dc2 → dc2 + 1 ≤ dnb := by
          intro dnb dc2 hdnb hdc2
          obtain ⟨a, da, ha1, ha2, ha3, ha4⟩ := bfs_crossing edges ids vis
            (fun a => a ∈ q ∨ a = c) s hWF
            (by
              intro a ha b hb hbid
              rcases inv.close a ha b hb hbid with h | h | h
              · exact Or.inl h
              · exact Or.inr (Or.inl h)
              · exact Or.inr (Or.inr h.1))
            inv.smark dnb nb hdnb.1 hnm
          obtain ⟨dista, hdista⟩ := isDist_exists edges s a
            (reaches_of_reachesIn edges da s a ha3)
          have hda : dista ≤ da := hdista.2 da ha3
          rcases ha2 with hq | hc
          · have : dc2 ≤ dista := inv.qlow a hq dista dc2 hdista hdc2
            omega
          · have : dista = dc2 := isDist_unique edges s c dista dc2
              (hc ▸ hdista) hdc2
            omega
        have hmark : ∀ k, getA (setA vis nb 1) k = some 1 →
            getA vis k = some 1 ∨ k = nb := by
          intro k hk
          rw [getA_setA] at hk
          by_cases he : k = nb
          · exact Or.inr he
          · rw [if_neg he] at hk
            exact Or.inl hk
        have inv2 : BfsMidInv edges ids s c rest (q ++ [nb])
            (setA vis nb 1) := by
          refine ⟨?_, ?_, ?_, ?_, ?_, ?_, ?_, ?_, ?_, ?_, ?_, ?_⟩
          · intro k hk
            rcases hmark k hk with h | h
            · exact inv.reach k h
            · exact h ▸ hnreach
          · intro a ha b hb hbid
            rcases hmark a ha with h | h
            · rcases inv.close a h b hb hbid with h2 | h2 | h2
              · exact Or.inl (getA_setA_one_pres vis nb b h2)
              · exact Or.inr (Or.inl (List.mem_append.mpr (Or.inl h2)))
              · rcases List.mem_cons.mp h2.2 with h3 | h3
                · refine Or.inl ?_
                  rw [h3, getA_setA, if_pos rfl]
                · exact Or.inr (Or.inr ⟨h2.1, h3⟩)
            · exact Or.inr (Or.inl (List.mem_append.mpr (Or.inr
                (h ▸ List.mem_singleton_self nb))))
          · exact getA_setA_one_pres vis nb s inv.smark
          · intro z hz
            rcases List.mem_append.mp hz with hz | hz
            · exact getA_setA_one_pres vis nb z (inv.qmark z hz)
            · simp only [List.mem_singleton] at hz
              rw [hz, getA_setA, if_pos rfl]
          · rw [List.pairwise_append]
            refine ⟨inv.sorted, List.pairwise_singleton _ _, ?_⟩
            intro z hz b hb dz db hdz hdb
            simp only [List.mem_singleton] at hb
            subst hb
            obtain ⟨dc2, hdc2⟩ := isDist_exists edges s c
              (inv.reach c inv.cmark)
            have h1 : dz ≤ dc2 + 1 := inv.qhigh z hz dz dc2 hdz hdc2
            have h2 : dc2 + 1 ≤ db := hnblow db dc2 hdb hdc2
            omega
          · intro z hz dz dc2 hdz hdc2
            rcases List.mem_append.mp hz with hz | hz
            · exact inv.qlow z hz dz dc2 hdz hdc2
            · simp only [List.mem_singleton] at hz
              subst hz
              have := hnblow dz dc2 hdz hdc2
              omega
          · intro z hz dz dc2 hdz hdc2
            rcases List.mem_append.mp hz with hz | hz
            · exact inv.qhigh z hz dz dc2 hdz hdc2
            · simp only [List.mem_singleton] at hz
              subst hz
              exact hnbhigh dz dc2 hdz hdc2
          · intro k hk dk dc2 hdk hdc2
            rcases hmark k hk with h | h
            · exact inv.mhigh k h dk dc2 hdk hdc2
            · exact hnbhigh dk dc2 (h ▸ hdk) hdc2
          · exact getA_setA_one_pres vis nb c inv.cmark
          · exact fun b hb => inv.pend b (List.mem_cons_of_mem _ hb)
          · intro k hk
            rw [getA_setA]
            split_ifs with he
            · simp
            · exact inv.idsdom k hk
          · intro k
            rw [getA_setA]
            split_ifs with he
            · exact Or.inr (Or.inr rfl)
            · exact inv.vals01 k
        obtain ⟨r1, r2⟩ := ih (q ++ [nb]) (setA vis nb 1) recs1 q2 vis2
          hrec inv2
        refine ⟨?_, r2⟩
        intro r hr
        rcases List.mem_cons.mp hr with hr | hr
        · subst hr
          constructor
          · exact inv2.reach
          · exact bfsMidInv_key edges ids s c rest (q ++ [nb])
              (setA vis nb 1) hWF inv2
        · exact r1 r hr
    · rw [if_neg h0] at heq
      have inv2 : BfsMidInv edges ids s c rest q vis := by
        refine ⟨inv.reach, ?_, inv.smark, inv.qmark, inv.sorted, inv.qlow,
          inv.qhigh, inv.mhigh, inv.cmark,
          fun b hb => inv.pend b (List.mem_cons_of_mem _ hb), inv.idsdom,
          inv.vals01⟩
        intro a ha b hb hbid
        rcases inv.close a ha b hb hbid with h | h | h
        · exact Or.inl h
        · exact Or.inr (Or.inl h)
        · rcases List.mem_cons.mp h.2 with h3 | h3
          · subst h3
            rcases inv.vals01 b with hv | hv | hv
            · exact absurd hv (inv.idsdom b hbid)
            · exact absurd hv h0
            · exact Or.inl hv
          · exact Or.inr (Or.inr ⟨h.1, h3⟩)
      exact ih q vis recs q2 vis2 heq inv2

/-- Every record the BFS loop emits is distance-correct. -/
theorem bfsLoop_key (edges : List GraphEdge) (ids : List String) (s : String)
    (hWF : ∀ e ∈ edges, e.target ∈ ids) :
    ∀ (fuel : Nat) (q : List String) (vis : List (String × Nat)),
      BfsInv edges ids s q vis →
      ∀ r ∈ bfsLoop (buildAdjacencyList edges) fuel q vis,
        RecOK edges s r := by
  intro fuel
  induction fuel with
  | zero => simp [bfsLoop]
  | succ f ih =>
    intro q vis inv
    match q with
    | [] => simp [bfsLoop]
    | c :: rest =>
      simp only [bfsLoop]
      intro r hr
      have hcm : getA vis c = some 1 := inv.qmark c (List.mem_cons_self _ _)
      have midinv : BfsMidInv edges ids s c (buildAdjacencyList edges c)
          rest vis := by
        refine ⟨inv.reach, ?_, inv.smark,
          fun z hz => inv.qmark z (List.mem_cons_of_mem _ hz), ?_, ?_, ?_, ?_,
          hcm, fun b hb => (mem_buildAdjacencyList edges c b).mp hb,
          inv.idsdom, inv.vals01⟩
        · intro a ha b hb hbid
          rcases inv.close a ha b hb hbid with h | h
          · exact Or.inl h
          · rcases List.mem_cons.mp h with h2 | h2
            · exact Or.inr (Or.inr ⟨h2,
                (mem_buildAdjacencyList edges c b).mpr (h2 ▸ hb)⟩)
            · exact Or.inr (Or.inl h2)
        · exact (List.pairwise_cons.mp inv.sorted).2
        · intro z hz dz dc2 hdz hdc2
          exact (List.pairwise_cons.mp inv.sorted).1 z hz dc2 dz hdc2 hdz
        · intro z hz dz dc2 hdz hdc2
          exact inv.mbound z (inv.qmark z (List.mem_cons_of_mem _ hz)) c
            (List.mem_cons_self _ _) dz dc2 hdz hdc2
        · intro k hk dk dc2 hdk hdc2
          exact inv.mbound k hk c (List.mem_cons_self _ _) dk dc2 hdk hdc2
      cases hrec : bfsNbrs c (buildAdjacencyList edges c) rest vis with
      | mk recs qv =>
        obtain ⟨r1, r2⟩ := bfsNbrs_key edges ids s c hWF
          (buildAdjacencyList edges c) rest vis recs qv.1 qv.2
          (by rw [hrec]) midinv
        rw [hrec] at hr
        rcases List.mem_cons.mp hr with hr | hr
        · subst hr
          constructor
          · exact inv.reach
          · exact bfsMidInv_key edges ids s c (buildAdjacencyList edges c)
              rest vis hWF midinv
        · rcases List.mem_append.mp hr with hr | hr
          · exact r1 r hr
          · exact ih qv.1 qv.2 r2 r hr

/-- The visit order read off a BFS trace: node ids in order of the first
record that maps them to 1 (ids scanned in node-list order inside one
record; the BFS marks at most one new node per record). -/
def visitOrder (ids : List String) (steps : List BFSStep) : List String :=
  steps.foldl (fun acc st =>
    acc ++ ids.filter (fun v =>
      (getA st.visited v == some 1) && !(acc.contains v))) []

/-- C5: on a graph whose edge endpoints name existing nodes, the BFS trace
marks nodes in non-decreasing shortest-path distance from the start: a
node already visited in some record is never farther from the start than
a node not yet visited there but visited in another record.  On the
sample DAG the visit order is A, B, C, D, E. -/
theorem c5_bfs_visits_in_distance_order :
    (∀ (nodes : List GraphNode) (edges : List GraphEdge)
        (startNodeId : Option String) (s : String),
      resolveStart nodes startNodeId = some s →
      (∀ e ∈ edges, e.source ∈ nodes.map (fun n => n.id) ∧
        e.target ∈ nodes.map (fun n => n.id)) →
      ∀ r ∈ bfsStepsDetailed nodes edges startNodeId,
        ∀ r2 ∈ bfsStepsDetailed nodes edges startNodeId,
          ∀ v w dv dw,
            getA r.visited v = some 1 → getA r.visited w ≠ some 1 →
            getA r2.visited w = some 1 →
            IsDist edges s v dv → IsDist edges s w dw → dv ≤ dw) ∧
    visitOrder (createSampleDAG.1.map (fun n => n.id))
      (bfsStepsDetailed createSampleDAG.1 createSampleDAG.2 none) =
      ["A", "B", "C", "D", "E"] := by
  constructor
  · intro nodes edges startNodeId s hstart hWF r hr r2 hr2 v w dv dw hv hw hw2
      hdv hdw
    have hWFt : ∀ e ∈ edges, e.target ∈ nodes.map (fun n => n.id) :=
      fun e he => (hWF e he).2
    unfold bfsStepsDetailed at hr hr2
    rw [hstart] at hr hr2
    simp only [List.mem_cons] at hr hr2
    have hmarked1 : ∀ k, getA (setA (initVisited nodes) s 1) k = some 1 →
        k = s := by
      intro k hk
      rw [getA_setA] at hk
      by_cases he : k = s
      · exact he
      · rw [if_neg he, getA_initVisited] at hk
        split_ifs at hk <;> exact absurd hk (by simp)
    have hsmark : getA (setA (initVisited nodes) s 1) s = some 1 := by
      rw [getA_setA, if_pos rfl]
    have hheadOK : RecOK edges s ⟨s, [s], setA (initVisited nodes) s 1⟩ := by
      constructor
      · intro k hk
        simp only at hk
        rw [hmarked1 k hk]
        exact Relation.ReflTransGen.refl
      · intro v2 w2 dv2 dw2 hv2 _ _ hdv2 _
        simp only at hv2
        have hvs := hmarked1 v2 hv2
        rw [hvs] at hdv2
        have : dv2 = 0 := isDist_unique edges s s dv2 0 hdv2 (isDist_self _ _)
        omega
    have hinv : BfsInv edges (nodes.map (fun n => n.id)) s [s]
        (setA (initVisited nodes) s 1) := by
      refine ⟨?_, ?_, hsmark, ?_, List.pairwise_singleton _ _, ?_, ?_, ?_⟩
      · intro k hk
        rw [hmarked1 k hk]
        exact Relation.ReflTransGen.refl
      · intro a ha _ _ _
        exact Or.inr ((hmarked1 a ha) ▸ List.mem_singleton_self s)
      · intro z hz
        simp only [List.mem_singleton] at hz
        rw [hz]
        exact hsmark
      · intro k hk z hz dk dz hdk hdz
        have hks := hmarked1 k hk
        simp only [List.mem_singleton] at hz
        rw [hks] at hdk
        rw [hz] at hdz
        have := isDist_unique edges s s dk dz hdk hdz
        omega
      · intro k hk
        rw [getA_setA]
        split_ifs with he
        · simp
        · rw [getA_initVisited, if_pos hk]
          simp
      · intro k
        rw [getA_setA]
        split_ifs with he
        · exact Or.inr (Or.inr rfl)
        · rw [getA_initVisited]
          split_ifs
          · exact Or.inr (Or.inl rfl)
          · exact Or.inl rfl
    have hRecAll : ∀ r3 : BFSStep,
        (r3 = ⟨s, [s], setA (initVisited nodes) s 1⟩ ∨
          r3 ∈ bfsLoop (buildAdjacencyList edges) (2 * nodes.length + 2) [s]
            (setA (initVisited nodes) s 1)) → RecOK edges s r3 := by
      intro r3 hr3
      rcases hr3 with hr3 | hr3
      · exact hr3 ▸ hheadOK
      · exact bfsLoop_key edges (nodes.map (fun n => n.id)) s hWFt
          (2 * nodes.length + 2) [s] (setA (initVisited nodes) s 1) hinv
          r3 hr3
    exact (hRecAll r hr).2 v w dv dw hv hw ((hRecAll r2 hr2).1 w hw2) hdv hdw
  · decide

/-- Witness for C5 on the sample DAG (B is visited before E and is
closer). -/
theorem c5_bfs_visits_in_distance_order_witness :
    visitOrder (createSampleDAG.1.map (fun n => n.id))
      (bfsStepsDetailed createSampleDAG.1 createSampleDAG.2 none) =
      ["A", "B", "C", "D", "E"] ∧
    ∀ dv dw, IsDist createSampleDAG.2 "A" "B" dv →
      IsDist createSampleDAG.2 "A" "E" dw → dv ≤ dw := by
  constructor
  · exact c5_bfs_visits_in_distance_order.2
  · intro dv dw hdv hdw
    refine c5_bfs_visits_in_distance_order.1 createSampleDAG.1
      createSampleDAG.2 none "A" (by decide) (by decide)
      ⟨"A", ["B"], [("A", 1), ("B", 1), ("C", 0), ("D", 0), ("E", 0)]⟩
      (by decide)
      ⟨"E", [], [("A", 1), ("B", 1), ("C", 1), ("D", 1), ("E", 1)]⟩
      (by decide) "B" "E" dv dw (by decide) (by decide) (by decide) hdv hdw

/-- The generator's invariant: acyclicity (re-checked by the code on every
candidate), no duplicate (source,target) pair, index-ordered endpoints,
and the count bound survive every sampling attempt. -/
theorem genEdgesLoop_invariant (nodes : List GraphNode) (numNodes numEdges : Nat)
    (rnd : Nat → Nat × Nat) (hpos : 0 < numNodes) :
    ∀ remaining attempt edges edgeCount,
      hasCycle nodes edges = false →
      edges.Pairwise (fun e1 e2 => ¬(e1.source = e2.source ∧ e1.target = e2.target)) →
      (∀ e ∈ edges, ∃ i j, i < j ∧ j < numNodes ∧
        e.source = nodeIdOf i ∧ e.target = nodeIdOf j) →
      edges.length = edgeCount →
      edgeCount ≤ numEdges →
      hasCycle nodes (genEdgesLoop nodes numNodes numEdges rnd remaining attempt
          edges edgeCount) = false ∧
      (genEdgesLoop nodes numNodes numEdges rnd remaining attempt edges
          edgeCount).Pairwise
        (fun e1 e2 => ¬(e1.source = e2.source ∧ e1.target = e2.target)) ∧
      (∀ e ∈ genEdgesLoop nodes numNodes numEdges rnd remaining attempt edges edgeCount,
        ∃ i j, i < j ∧ j < numNodes ∧ e.source = nodeIdOf i ∧ e.target = nodeIdOf j) ∧
      (genEdgesLoop nodes numNodes numEdges rnd remaining attempt edges
          edgeCount).length ≤ numEdges := by
  intro remaining
  induction remaining with
  | zero =>
    intro attempt edges edgeCount h1 h2 h3 h4 h5
    simp only [genEdgesLoop]
    exact ⟨h1, h2, h3, by omega⟩
  | succ rem ih =>
    intro attempt edges edgeCount h1 h2 h3 h4 h5
    simp only [genEdgesLoop]
    by_cases hcnt : edgeCount < numEdges
    · simp only [if_pos hcnt]
      by_cases hlt : (rnd attempt).1 % numNodes < (rnd attempt).2 % numNodes
      · simp only [if_pos hlt]
        by_cases hdup : edges.any (fun e =>
            e.source = nodeIdOf ((rnd attempt).1 % numNodes) &&
            e.target = nodeIdOf ((rnd attempt).2 % numNodes))
        · simp only [if_pos hdup]
          exact ih _ _ _ h1 h2 h3 h4 h5
        · simp only [if_neg hdup]
          by_cases hcyc : hasCycle nodes (edges ++
              [⟨"e-" ++ toString edgeCount, nodeIdOf ((rnd attempt).1 % numNodes),
                nodeIdOf ((rnd attempt).2 % numNodes)⟩]) = true
          · simp only [if_pos hcyc]
            exact ih _ _ _ h1 h2 h3 h4 h5
          · simp only [if_neg hcyc]
            apply ih
            · rw [hasCycle_srcTgt_congr nodes _ (edges ++
                [⟨"e-" ++ toString edgeCount,
                  nodeIdOf ((rnd attempt).1 % numNodes),
                  nodeIdOf ((rnd attempt).2 % numNodes)⟩]) (by simp)]
              simpa using hcyc
            · rw [List.pairwise_append]
              refine ⟨h2, List.pairwise_singleton _ _, ?_⟩
              intro a ha b hb
              simp only [List.mem_singleton] at hb
              subst hb
              simp only [List.any_eq_true, Bool.and_eq_true, decide_eq_true_eq,
                not_exists, not_and] at hdup
              intro hab
              exact hdup a ha hab.1 hab.2
            · intro e he
              rcases List.mem_append.mp he with he | he
              · exact h3 e he
              · simp only [List.mem_singleton] at he
                subst he
                exact ⟨(rnd attempt).1 % numNodes, (rnd attempt).2 % numNodes,
                  hlt, Nat.mod_lt _ hpos, rfl, rfl⟩
            · simp [h4]
            · omega
      · simp only [if_neg hlt]
        exact ih _ _ _ h1 h2 h3 h4 h5
    · simp only [if_neg hcnt]
      exact ⟨h1, h2, h3, by omega⟩

/-- C6: for all node counts in [3,20] and edge targets in [1,30] and every
random oracle, the generated graph passes `hasCycle`, has no duplicate
(source,target) pair, every edge goes from a strictly smaller node index
to a larger one, and at most the requested number of edges is produced. -/
theorem c6_random_dag_properties (numNodes numEdges : Nat) (rnd : Nat → Nat × Nat)
    (hN1 : 3 ≤ numNodes) (hN2 : numNodes ≤ 20)
    (hM1 : 1 ≤ numEdges) (hM2 : numEdges ≤ 30) :
    hasCycle (generateRandomDAG numNodes numEdges rnd).1
      (generateRandomDAG numNodes numEdges rnd).2 = false ∧
    (generateRandomDAG numNodes numEdges rnd).2.Pairwise
      (fun e1 e2 => ¬(e1.source = e2.source ∧ e1.target = e2.target)) ∧
    (∀ e ∈ (generateRandomDAG numNodes numEdges rnd).2,
      ∃ i j, i < j ∧ j < numNodes ∧ e.source = nodeIdOf i ∧ e.target = nodeIdOf j) ∧
    (generateRandomDAG numNodes numEdges rnd).2.length ≤ numEdges := by
  have hpos : 0 < numNodes := by omega
  have := genEdgesLoop_invariant
    ((List.range numNodes).map
      (fun i => GraphNode.mk (nodeIdOf i) (Char.ofNat (65 + i)).toString))
    numNodes numEdges rnd hpos (numEdges * 10) 0 [] 0
    (hasCycle_no_edges _) (List.Pairwise.nil) (by simp) rfl (by omega)
  simpa [generateRandomDAG] using this

/-- Witness for C6 at the smallest admissible parameters. -/
theorem c6_random_dag_properties_witness :
    hasCycle (generateRandomDAG 3 1 (fun _ => (0, 1))).1
      (generateRandomDAG 3 1 (fun _ => (0, 1))).2 = false ∧
    (generateRandomDAG 3 1 (fun _ => (0, 1))).2.Pairwise
      (fun e1 e2 => ¬(e1.source = e2.source ∧ e1.target = e2.target)) ∧
    (∀ e ∈ (generateRandomDAG 3 1 (fun _ => (0, 1))).2,
      ∃ i j, i < j ∧ j < 3 ∧ e.source = nodeIdOf i ∧ e.target = nodeIdOf j) ∧
    (generateRandomDAG 3 1 (fun _ => (0, 1))).2.length ≤ 1 :=
  c6_random_dag_properties 3 1 (fun _ => (0, 1))
    (by decide) (by decide) (by decide) (by decide)

/-- C9: with an empty node list all three trace generators return an empty
trace (for every edge list, in particular the empty one the data model
allows): the topological loop sees an empty remaining set, and DFS/BFS
resolve no start node. -/
theorem c9_empty_node_list_traces (edges : List GraphEdge) :
    topologicalSortStepsDetailed [] edges = [] ∧
    dfsStepsDetailed [] edges none = [] ∧
    bfsStepsDetailed [] edges none = [] :=
  ⟨rfl, rfl, rfl⟩
